import Mathlib

/-!
# Message-Queue client: queue, request codec and client operations

Shallow embedding of `src/queue.c`, `src/request.c` and `src/client.c`.

* Request structures live in a heap indexed by addresses; `NULL` is `none`.
* `sem_wait` on a semaphore whose value is zero does not return: the
  sequential model reports `Stuck.blocked`.
* Dereferencing `NULL` or a dangling address is reported as `Stuck.fault`.
* C strings are modelled by `String`; `strdup` is taken to succeed, while the result of
  the `malloc` in `request_create` is an explicit argument of the operations that call it.
* `socket_connect` and the server belong to the environment: the connection a worker
  obtains is an argument of the iteration that uses it.
* Concurrent use of one queue is modelled by interleaving: each semaphore operation and
  each critical section executed while holding `Lock` is one atomic step of one thread.
-/

namespace MQ

/-! ## Data model -/

/-- Address of a heap allocated `Request` (a non-NULL `Request *`). -/
abbrev Ptr := Nat

/-- The `Request` structure: method, uri, optional body (`NULL` is `none`)
and the intrusive `next` link used by the queue. -/
structure Request where
  method : String
  uri : String
  body : Option String
  next : Option Ptr
deriving DecidableEq, Repr

/-- The part of a Request that travels on the wire. -/
def Request.payload (r : Request) : String × String × Option String :=
  (r.method, r.uri, r.body)

/-- Heap of Request structures. -/
abbrev Heap := Ptr → Option Request

/-- Heap with nothing allocated. -/
def Heap.empty : Heap := fun _ => none

/-- Store (or, with `none`, free) the cell at address `p`. -/
def Heap.set (h : Heap) (p : Ptr) (v : Option Request) : Heap :=
  fun a => if a = p then v else h a

/-- The `Queue` structure: `head`, `tail`, `size` and the two semaphores
`produced` (initially 0) and `Lock` (initially 1). The declaration (`mq/queue.h`) is not
among the sources, so the width of `size` is unknown; it is an unbounded integer here. -/
structure Queue where
  head : Option Ptr
  tail : Option Ptr
  size : Int
  produced : Nat
  Lock : Nat
deriving DecidableEq, Repr

/-- Ways in which a call fails to return normally. -/
inductive Stuck where
  | blocked
  | fault
deriving DecidableEq, Repr

/-! ## Semaphores -/

/-- Semaphore operation `sem_wait`: decrement, or block when the value is zero. -/
def sem_wait (s : Nat) : Except Stuck Nat :=
  match s with
  | 0 => .error .blocked
  | n + 1 => .ok n

/-- Semaphore operation `sem_post`: increment. -/
def sem_post (s : Nat) : Nat := s + 1

/-! ## queue.c -/

/-- Function `queue_create` (queue.c 9-20). -/
def queue_create : Queue :=
  { head := none, tail := none, size := 0, produced := 0, Lock := 1 }

/-- Critical section of `queue_push` (queue.c 46-54), run while holding `Lock`. -/
def push_body (h : Heap) (q : Queue) (r : Option Ptr) : Except Stuck (Heap × Queue) :=
  let linkStep : Except Stuck (Heap × Queue) :=
    if q.size = 0 then
      .ok (h, { q with head := r, tail := r })
    else
      match q.tail with
      | none => .error .fault
      | some t =>
        match h t with
        | none => .error .fault
        | some nd => .ok (h.set t (some { nd with next := r }), { q with tail := r })
  match linkStep with
  | .error e => .error e
  | .ok (h1, q1) =>
    match r with
    | none => .error .fault
    | some p =>
      match h1 p with
      | none => .error .fault
      | some nd =>
        .ok (h1.set p (some { nd with next := none }), { q1 with size := q1.size + 1 })

/-- Function `queue_push` (queue.c 44-58). -/
def queue_push (h : Heap) (q : Queue) (r : Option Ptr) : Except Stuck (Heap × Queue) :=
  match sem_wait q.Lock with
  | .error e => .error e
  | .ok lk =>
    match push_body h { q with Lock := lk } r with
    | .error e => .error e
    | .ok (h1, q1) =>
      .ok (h1, { q1 with Lock := sem_post q1.Lock, produced := sem_post q1.produced })

/-- Critical section of `queue_pop` (queue.c 68-72), run while holding `Lock`. -/
def pop_body (h : Heap) (q : Queue) : Except Stuck (Queue × Option Ptr) :=
  match q.head with
  | none => .ok ({ q with size := q.size - 1 }, none)
  | some p =>
    match h p with
    | none => .error .fault
    | some nd => .ok ({ q with head := nd.next, size := q.size - 1 }, some p)

/-- Function `queue_pop` (queue.c 65-76). -/
def queue_pop (h : Heap) (q : Queue) : Except Stuck (Queue × Option Ptr) :=
  match sem_wait q.produced with
  | .error e => .error e
  | .ok pr =>
    match sem_wait q.Lock with
    | .error e => .error e
    | .ok lk =>
      match pop_body h { q with produced := pr, Lock := lk } with
      | .error e => .error e
      | .ok (q1, r) => .ok ({ q1 with Lock := sem_post q1.Lock }, r)

/-- Push the Requests `ps` one after the other. -/
def pushAll (h : Heap) (q : Queue) : List Ptr → Except Stuck (Heap × Queue)
  | [] => .ok (h, q)
  | p :: ps =>
    match queue_push h q (some p) with
    | .error e => .error e
    | .ok (h1, q1) => pushAll h1 q1 ps

/-- Call `queue_pop` `n` times, collecting the returned pointers in call order. -/
def popN (h : Heap) (q : Queue) : Nat → Except Stuck (Queue × List (Option Ptr))
  | 0 => .ok (q, [])
  | n + 1 =>
    match queue_pop h q with
    | .error e => .error e
    | .ok (q1, r) =>
      match popN h q1 n with
      | .error e => .error e
      | .ok (q2, rs) => .ok (q2, r :: rs)

/-! ## Linked nodes -/

/-- The nodes reached from `p` by following `next` up to `NULL` are exactly `l`. -/
def linked (h : Heap) : Option Ptr → List Ptr → Prop
  | p, [] => p = none
  | p, x :: xs => p = some x ∧ ∃ nd, h x = some nd ∧ linked h nd.next xs

/-- Representation invariant of a quiescent queue whose content is `l`. -/
structure WF (h : Heap) (q : Queue) (l : List Ptr) : Prop where
  chain : linked h q.head l
  nodup : l.Nodup
  size_eq : q.size = l.length
  produced_eq : q.produced = l.length
  lock_free : q.Lock = 1
  tail_last : ∀ t, l.getLast? = some t → q.tail = some t

/-- An empty queue: fresh from `queue_create` or drained by pops (`tail` may be stale). -/
def EmptyQ (q : Queue) : Prop :=
  q.head = none ∧ q.size = 0 ∧ q.produced = 0 ∧ q.Lock = 1

/-! ## request.c -/

/-- What one `malloc(sizeof(Request))` call returned: the address of the block and the
indeterminate content of its `next` field, which `request_create` leaves uninitialised. -/
structure Block where
  addr : Ptr
  next : Option Ptr
deriving DecidableEq, Repr

/-- Function `request_create` (request.c 15-29). `blk` is the result of `malloc` (`none` is NULL).
Every caller in client.c passes a non-NULL method and uri. -/
def request_create (h : Heap) (blk : Option Block) (method uri : String)
    (body : Option String) : Heap × Option Ptr :=
  match blk with
  | none => (h, none)
  | some b =>
    (h.set b.addr (some { method := method, uri := uri, body := body, next := b.next }),
      some b.addr)

/-- Function `request_delete` (request.c 35-43): nothing for NULL, otherwise the structure is freed. -/
def request_delete (h : Heap) (r : Option Ptr) : Except Stuck Heap :=
  match r with
  | none => .ok h
  | some p =>
    match h p with
    | none => .error .fault
    | some _ => .ok (h.set p none)

/-- Function `request_write` (request.c 56-69). The stream is the text written to it so far;
`none` is a NULL stream, to which nothing is written. `%ld` prints `strlen(body)`. -/
def request_write (r : Request) (fs : Option String) : Option String :=
  match fs with
  | none => none
  | some out =>
    let out1 := out ++ (r.method ++ " " ++ r.uri ++ " HTTP/1.0\r\n")
    match r.body with
    | some b =>
      let out2 := out1 ++ ("Content-Length: " ++ toString b.utf8ByteSize ++ "\r\n")
      let out3 := out2 ++ "\r\n"
      some (out3 ++ b)
    | none => some (out1 ++ "\r\n")

/-! ## client.c -/

/-- The reserved value `SENTINEL` (client.c 10). -/
def SENTINEL : String := "SHUTDOWN"

/-- Modelled from the spec: the `streq` macro of `mq/string.h`, which is not among the
sources; the spec describes its use as "body equals the reserved sentinel value". -/
def streq (a b : String) : Bool := a == b

/-- One connection handed out by `socket_connect`: the text the client has written to it and
the text the server will still deliver. -/
structure Socket where
  sent : String
  recv : List Char
deriving DecidableEq, Repr

/-- The `MessageQueue` structure, together with the memory holding its Requests (`heap`) and
the requests written on connections that have been closed (`wire`, oldest first). -/
structure MessageQueue where
  name : String
  host : String
  port : String
  heap : Heap
  outgoing : Queue
  incoming : Queue
  shutdown : Bool
  Lock : Nat
  wire : List String

/-- Function `mq_create` (client.c 26-41). -/
def mq_create (name host port : String) : MessageQueue :=
  { name := name, host := host, port := port, heap := Heap.empty,
    outgoing := queue_create, incoming := queue_create, shutdown := false, Lock := 1,
    wire := [] }

/-- Call of `sprintf` into a `char [BUFSIZ]` array: writing more than fits is a fault. `BUFSIZ`
comes from the C library and is a parameter here. -/
def sprintf_buf (BUFSIZ : Nat) (s : String) : Except Stuck String :=
  if s.utf8ByteSize < BUFSIZ then .ok s else .error .fault

/-- Shared tail of publish, subscribe and unsubscribe: `request_create` then
`queue_push(mq->outgoing, r)`. -/
def enqueue_outgoing (mq : MessageQueue) (blk : Option Block) (method uri : String)
    (body : Option String) : Except Stuck MessageQueue :=
  match request_create mq.heap blk method uri body with
  | (h1, r) =>
    match queue_push h1 mq.outgoing r with
    | .error e => .error e
    | .ok (h2, q2) => .ok { mq with heap := h2, outgoing := q2 }

/-- Function `mq_publish` (client.c 61-68). -/
def mq_publish (BUFSIZ : Nat) (mq : MessageQueue) (blk : Option Block) (topic : String)
    (body : Option String) : Except Stuck MessageQueue :=
  match sprintf_buf BUFSIZ ("/topic/" ++ topic) with
  | .error e => .error e
  | .ok uri => enqueue_outgoing mq blk "PUT" uri body

/-- Function `mq_retrieve` (client.c 75-88): the returned message, `none` for NULL. -/
def mq_retrieve (mq : MessageQueue) : Except Stuck (MessageQueue × Option String) :=
  match queue_pop mq.heap mq.incoming with
  | .error e => .error e
  | .ok (q1, r) =>
    match r with
    | none => .error .fault
    | some p =>
      match mq.heap p with
      | none => .error .fault
      | some nd =>
        match nd.body with
        | none => .error .fault
        | some b =>
          if streq SENTINEL b then
            match request_delete mq.heap (some p) with
            | .error e => .error e
            | .ok h1 => .ok ({ mq with heap := h1, incoming := q1 }, none)
          else
            match request_delete mq.heap (some p) with
            | .error e => .error e
            | .ok h1 => .ok ({ mq with heap := h1, incoming := q1 }, some b)

/-- Function `mq_subscribe` (client.c 95-102). -/
def mq_subscribe (BUFSIZ : Nat) (mq : MessageQueue) (blk : Option Block) (topic : String) :
    Except Stuck MessageQueue :=
  match sprintf_buf BUFSIZ ("/subscription/" ++ mq.name ++ "/" ++ topic) with
  | .error e => .error e
  | .ok uri => enqueue_outgoing mq blk "PUT" uri none

/-- Function `mq_unsubscribe` (client.c 109-117). -/
def mq_unsubscribe (BUFSIZ : Nat) (mq : MessageQueue) (blk : Option Block) (topic : String) :
    Except Stuck MessageQueue :=
  match sprintf_buf BUFSIZ ("/subscription/" ++ mq.name ++ "/" ++ topic) with
  | .error e => .error e
  | .ok uri => enqueue_outgoing mq blk "DELETE" uri none

/-- Function `mq_stop` up to the joins (client.c 139-144): publish the sentinel, then set the flag
under the lock. -/
def mq_stop_signal (BUFSIZ : Nat) (mq : MessageQueue) (blk : Option Block) :
    Except Stuck MessageQueue :=
  match mq_publish BUFSIZ mq blk SENTINEL (some SENTINEL) with
  | .error e => .error e
  | .ok mq1 =>
    match sem_wait mq1.Lock with
    | .error e => .error e
    | .ok lk => .ok { mq1 with shutdown := true, Lock := sem_post lk }

/-- Function `mq_shutdown` (client.c 153-159). -/
def mq_shutdown (mq : MessageQueue) : Except Stuck (MessageQueue × Bool) :=
  match sem_wait mq.Lock with
  | .error e => .error e
  | .ok lk => .ok ({ mq with Lock := sem_post lk }, mq.shutdown)

/-- One iteration of the loop body of `mq_pusher` (client.c 170-185). `conn` is the result
of `socket_connect` (`none` is NULL). -/
def mq_pusher_iter (mq : MessageQueue) (conn : Option Socket) : Except Stuck MessageQueue :=
  match queue_pop mq.heap mq.outgoing with
  | .error e => .error e
  | .ok (q1, r) =>
    match conn with
    | none => .ok { mq with outgoing := q1 }
    | some fs =>
      match r with
      | none => .error .fault
      | some p =>
        match mq.heap p with
        | none => .error .fault
        | some nd =>
          match request_write nd (some fs.sent), request_delete mq.heap (some p) with
          | some out, .ok h1 =>
            .ok { mq with heap := h1, outgoing := q1, wire := mq.wire ++ [out] }
          | _, _ => .error .fault

/-- The loop of `mq_pusher` (client.c 168-187), run for at most `fuel` evaluations of the
loop condition. `conns` lists the results of the successive `socket_connect` calls. The
flag in the result tells whether the worker has returned. -/
def mq_pusher : Nat → MessageQueue → List (Option Socket) → Except Stuck (MessageQueue × Bool)
  | 0, mq, _ => .ok (mq, false)
  | fuel + 1, mq, conns =>
    match mq_shutdown mq with
    | .error e => .error e
    | .ok (mq1, true) => .ok (mq1, true)
    | .ok (mq1, false) =>
      match mq_pusher_iter mq1 (conns.headD none) with
      | .error e => .error e
      | .ok mq2 => mq_pusher fuel mq2 conns.tail

/-- Does `s` begin with `pre`? -/
def startsWith : List Char → List Char → Bool
  | _, [] => true
  | [], _ :: _ => false
  | c :: cs, d :: ds => c == d && startsWith cs ds

/-- Test `strstr(hay, needle) != NULL`. -/
def strstr : List Char → List Char → Bool
  | [], needle => startsWith [] needle
  | c :: cs, needle => startsWith (c :: cs) needle || strstr cs needle

/-- Characters taken by one `fgets`: at most `k`, stopping after a line feed. -/
def fgets_take : Nat → List Char → List Char × List Char
  | 0, s => ([], s)
  | _ + 1, [] => ([], [])
  | k + 1, c :: s =>
    if c = Char.ofNat 10 then ([c], s)
    else
      match fgets_take k s with
      | (a, b) => (c :: a, b)

/-- Call `fgets(buffer, n, fs)`: `none` (NULL) at end of input, otherwise the line read and the
rest of the input. -/
def fgets (n : Nat) (s : List Char) : Option (List Char × List Char) :=
  match s with
  | [] => none
  | _ :: _ => some (fgets_take (n - 1) s)

/-- The header loop of `mq_puller` (client.c 221-223): read lines until `fgets` fails or
the line is `"\r\n"`; the result is the input left after the loop. The `sscanf` stores into
the local `length`, which is never read, so it has no effect on the result. The loop runs
at most `fuel` times (`none` when the fuel is used up). -/
def skip_headers (BUFSIZ : Nat) : Nat → List Char → Option (List Char)
  | 0, _ => none
  | fuel + 1, s =>
    match fgets BUFSIZ s with
    | none => some s
    | some (line, rest) =>
      if streq (String.mk line) "\r\n" then some rest
      else skip_headers BUFSIZ fuel rest

/-- One iteration of the loop body of `mq_puller` (client.c 198-231). `conn` is the result
of `socket_connect`, `blk1` and `blk2` the results of the two `malloc` calls, and
`stack_body` the text found in the uninitialised array `body` if `fgets` stores nothing
into it. -/
def mq_puller_iter (BUFSIZ : Nat) (mq : MessageQueue) (conn : Option Socket)
    (blk1 blk2 : Option Block) (stack_body : String) : Except Stuck MessageQueue :=
  match conn with
  | none => .ok mq
  | some fs =>
    match sprintf_buf BUFSIZ ("/queue/" ++ mq.name) with
    | .error e => .error e
    | .ok uri =>
      match request_create mq.heap blk1 "GET" uri none with
      | (_, none) => .error .fault
      | (h1, some p) =>
        match h1 p with
        | none => .error .fault
        | some nd =>
          match request_write nd (some fs.sent), request_delete h1 (some p) with
          | some out, .ok h2 =>
            let closed : MessageQueue := { mq with heap := h2, wire := mq.wire ++ [out] }
            match fgets BUFSIZ fs.recv with
            | none => .ok closed
            | some (status, rest) =>
              if !strstr status "200 OK".data then .ok closed
              else
                match skip_headers BUFSIZ (rest.length + 1) rest with
                | none => .error .blocked
                | some rest1 =>
                  let body : String :=
                    match fgets BUFSIZ rest1 with
                    | none => stack_body
                    | some (line, _) => String.mk line
                  match request_create h2 blk2 "GET" uri (some body) with
                  | (h3, response) =>
                    match queue_push h3 mq.incoming response with
                    | .error e => .error e
                    | .ok (h4, q4) =>
                      .ok { closed with heap := h4, incoming := q4 }
          | _, _ => .error .fault

/-- Queue states reachable from `queue_create` by `queue_push` of a Request that is not
already in the queue, by `queue_pop` calls that return, and by other code creating,
changing or freeing Requests that are not in the queue. -/
inductive Reach : Heap → Queue → Prop
  | create (h : Heap) : Reach h queue_create
  | push (h : Heap) (q : Queue) (p : Ptr) (h1 : Heap) (q1 : Queue) :
      Reach h q → (∀ l, linked h q.head l → p ∉ l) →
      queue_push h q (some p) = .ok (h1, q1) → Reach h1 q1
  | pop (h : Heap) (q q1 : Queue) (r : Option Ptr) :
      Reach h q → queue_pop h q = .ok (q1, r) → Reach h q1
  | other (h : Heap) (q : Queue) (h1 : Heap) :
      Reach h q → (∀ l, linked h q.head l → ∀ x ∈ l, h1 x = h x) → Reach h1 q

/-- A heap holding the listed Requests at the listed addresses. -/
def Heap.ofList : List (Ptr × Request) → Heap
  | [] => Heap.empty
  | (p, r) :: rest => (Heap.ofList rest).set p (some r)

/-- Sample Request used in the worked examples. -/
def sampleReq (body : String) : Request :=
  { method := "PUT", uri := "/topic/t", body := some body, next := none }

/-- Sample heap with Requests at addresses 1 and 2. -/
def sampleHeap : Heap := Heap.ofList [(1, sampleReq "a"), (2, sampleReq "b")]

/-- Sample heap after `queue_push` of address 1 and, later, of address 2. -/
def staleHeap : Heap :=
  (sampleHeap.set 1 (some (sampleReq "a"))).set 2 (some (sampleReq "b"))

/-- Sample queue after push 1, pop, push 2: one node, reached through a `tail` that was
stale before the second push. -/
def staleQueue : Queue :=
  { head := some 2, tail := some 2, size := 1, produced := 1, Lock := 1 }

/-- The client state `mq1` is `mq` with exactly one Request, stored at `p` and carrying
`method`, `uri` and `body`, appended at the tail of the outgoing queue whose earlier
content is `lo`; the earlier outgoing items and the incoming queue (content `li`) are as
before. -/
def AppendedOutgoing (mq mq1 : MessageQueue) (lo li : List Ptr) (p : Ptr)
    (method uri : String) (body : Option String) : Prop :=
  WF mq1.heap mq1.outgoing (lo ++ [p]) ∧
  mq1.heap p = some { method := method, uri := uri, body := body, next := none } ∧
  (∀ x ∈ lo, ∃ nd nd1, mq.heap x = some nd ∧ mq1.heap x = some nd1 ∧
    nd1.payload = nd.payload) ∧
  mq1.incoming = mq.incoming ∧ WF mq1.heap mq1.incoming li ∧
  (∀ x ∈ li, mq1.heap x = mq.heap x) ∧
  mq1.shutdown = mq.shutdown ∧ mq1.Lock = mq.Lock ∧ mq1.name = mq.name ∧
  mq1.wire = mq.wire

/-- Sample client named alice, just created. -/
def aliceClient : MessageQueue := mq_create "alice" "localhost" "9620"

/-- Sample client with one pending Request (publish of "hi" to topic chat, stored at
address 1) in its outgoing queue. -/
def pendingClient : MessageQueue :=
  match mq_publish 8192 aliceClient (some ⟨1, none⟩) "chat" (some "hi") with
  | .ok mq => mq
  | .error _ => aliceClient

/-- Sample client after `mq_stop` has published the sentinel (at address 1) and set the
shutdown flag. -/
def stoppedClient : MessageQueue :=
  match mq_stop_signal 8192 aliceClient (some ⟨1, none⟩) with
  | .ok mq => mq
  | .error _ => aliceClient

/-- Sample connection on which the server closes without sending anything. -/
def silentSocket : Socket := { sent := "", recv := [] }

/-- Sample client whose incoming queue holds one Request, with body "a", at address 1. -/
def inboxClient : MessageQueue :=
  { aliceClient with
    heap := sampleHeap,
    incoming := { head := some 1, tail := some 1, size := 1, produced := 1, Lock := 1 } }

/-- Sample server response with a success status line and a header, but neither the blank
line that ends the header block nor a body. -/
def truncatedResponse : List Char := "HTTP/1.0 200 OK\r\nContent-Length: 2\r\n".data

/-- The linked-list part of the queue invariant: the nodes linked from `head` are the
distinct nodes `l`, `size` is their number and, when there are any, `tail` is the last. -/
structure Chain (h : Heap) (q : Queue) (l : List Ptr) : Prop where
  chain : linked h q.head l
  nodup : l.Nodup
  size_eq : q.size = l.length
  tail_last : ∀ t, l.getLast? = some t → q.tail = some t

/-! ## Threads calling `queue_push` and `queue_pop` on one queue

Interleaving model: every thread runs a list of calls; each semaphore operation and each
critical section (executed while holding `Lock`) is one atomic step. -/

/-- One call on the queue. -/
inductive Call where
  | push (r : Ptr)
  | pop
deriving DecidableEq, Repr

/-- Position of a thread inside `queue_push` or `queue_pop`. -/
inductive Pc where
  | idle
  | push_crit (r : Ptr)
  | push_unlock
  | push_post
  | pop_lock
  | pop_crit
  | pop_unlock (r : Option Ptr)
deriving DecidableEq, Repr

/-- One thread: its position, the calls it still has to make and the values its completed
`queue_pop` calls returned, oldest first. -/
structure Thread where
  pc : Pc
  todo : List Call
  got : List (Option Ptr)
deriving DecidableEq, Repr

/-- The shared queue with the heap of Requests, and the threads using it. -/
structure Sys where
  heap : Heap
  q : Queue
  threads : List Thread

/-- Next atomic step of one thread, `none` when it has none: the thread has finished its
calls, is suspended in `sem_wait`, or would dereference a bad pointer.
* `idle`: start the next call with its first `sem_wait` (queue.c 45 for push, 66 for pop);
* `push_crit`: queue.c 46-54; `push_unlock`: 56; `push_post`: 57;
* `pop_lock`: queue.c 67; `pop_crit`: 68-72; `pop_unlock`: 74-75. -/
def thread_step (h : Heap) (q : Queue) (t : Thread) : Option (Heap × Queue × Thread) :=
  match t.pc with
  | .idle =>
    match t.todo with
    | [] => none
    | .push r :: rest =>
      match sem_wait q.Lock with
      | .ok lk => some (h, { q with Lock := lk }, { t with pc := .push_crit r, todo := rest })
      | .error _ => none
    | .pop :: rest =>
      match sem_wait q.produced with
      | .ok pr => some (h, { q with produced := pr }, { t with pc := .pop_lock, todo := rest })
      | .error _ => none
  | .push_crit r =>
    match push_body h q (some r) with
    | .ok (h1, q1) => some (h1, q1, { t with pc := .push_unlock })
    | .error _ => none
  | .push_unlock => some (h, { q with Lock := sem_post q.Lock }, { t with pc := .push_post })
  | .push_post => some (h, { q with produced := sem_post q.produced }, { t with pc := .idle })
  | .pop_lock =>
    match sem_wait q.Lock with
    | .ok lk => some (h, { q with Lock := lk }, { t with pc := .pop_crit })
    | .error _ => none
  | .pop_crit =>
    match pop_body h q with
    | .ok (q1, r) => some (h, q1, { t with pc := .pop_unlock r })
    | .error _ => none
  | .pop_unlock r =>
    some (h, { q with Lock := sem_post q.Lock }, { t with pc := .idle, got := t.got ++ [r] })

/-- One step of the system: one of the threads takes its next step. -/
def Step (s s1 : Sys) : Prop :=
  ∃ pre t post h1 q1 t1, s.threads = pre ++ t :: post ∧
    thread_step s.heap s.q t = some (h1, q1, t1) ∧
    s1 = { heap := h1, q := q1, threads := pre ++ t1 :: post }

/-- Any finite interleaving of steps. -/
inductive Steps : Sys → Sys → Prop
  | refl (s : Sys) : Steps s s
  | tail (s s1 s2 : Sys) : Steps s s1 → Step s1 s2 → Steps s s2

/-- No thread can take a step. -/
def Terminal (s : Sys) : Prop := ∀ s1, ¬ Step s s1

/-- Initial system: a freshly created queue and one idle thread per program. -/
def start (h : Heap) (progs : List (List Call)) : Sys :=
  { heap := h, q := queue_create,
    threads := progs.map (fun c => { pc := .idle, todo := c, got := [] }) }

/-- Does a thread at this position hold `Lock`? -/
def Pc.holds : Pc → Nat
  | .push_crit _ => 1
  | .push_unlock => 1
  | .pop_crit => 1
  | .pop_unlock _ => 1
  | _ => 0

/-- Queue nodes accounted for by a thread at this position: a node linked by a push whose
`sem_post(&q->produced)` is still to come, or a node reserved by a pop whose
`sem_wait(&q->produced)` has returned and whose critical section is still to come. -/
def Pc.credit : Pc → Nat
  | .push_unlock => 1
  | .push_post => 1
  | .pop_lock => 1
  | .pop_crit => 1
  | _ => 0

/-- The Requests pushed by a list of calls. -/
def callPushes : List Call → List Ptr
  | [] => []
  | .push r :: rest => r :: callPushes rest
  | .pop :: rest => callPushes rest

/-- Requests a thread has not linked into the queue yet. -/
def Thread.unpushed (t : Thread) : List Ptr :=
  (match t.pc with
    | .push_crit r => [r]
    | _ => []) ++ callPushes t.todo

/-- Request a thread has unlinked from the queue and is about to return. -/
def Thread.inflight (t : Thread) : List Ptr :=
  match t.pc with
  | .pop_unlock (some p) => [p]
  | _ => []

/-- Requests returned to a thread by its completed pops. -/
def Thread.returned (t : Thread) : List Ptr := t.got.filterMap id

/-- Concatenation of `f t` over the threads. -/
def gather (f : Thread → List Ptr) : List Thread → List Ptr
  | [] => []
  | t :: ts => f t ++ gather f ts

/-- Is the thread suspended in the `sem_wait(&q->produced)` of a pop? -/
def Thread.waitingPop (t : Thread) : Prop :=
  t.pc = .idle ∧ ∃ rest, t.todo = .pop :: rest

/-- Invariant of the concurrent executions; `P` lists the Requests of all push calls of
the programs and `l` is the content of the queue. -/
structure Inv (P : List Ptr) (s : Sys) (l : List Ptr) : Prop where
  chain : Chain s.heap s.q l
  lock : s.q.Lock + (s.threads.map (fun t => t.pc.holds)).sum = 1
  avail : l.length = s.q.produced + (s.threads.map (fun t => t.pc.credit)).sum
  own : List.Perm (gather Thread.unpushed s.threads ++ l ++ gather Thread.inflight s.threads
    ++ gather Thread.returned s.threads) P
  nodup : P.Nodup
  alloc : ∀ p ∈ P, ∃ nd, s.heap p = some nd
  nonnull : ∀ t ∈ s.threads, none ∉ t.got ∧ t.pc ≠ .pop_unlock none

/-- The Requests pushed by the programs of all threads. -/
def allPushes : List (List Call) → List Ptr
  | [] => []
  | c :: cs => callPushes c ++ allPushes cs

/-- Number of `queue_pop` calls that have returned. -/
def popsDone (s : Sys) : Nat := (s.threads.map (fun t => t.got.length)).sum

/-- Number of Requests of the programs `progs` that have been linked into the queue. -/
def pushesDone (progs : List (List Call)) (s : Sys) : Nat :=
  (allPushes progs).length - (gather Thread.unpushed s.threads).length

/-- Let thread number `i` take its next step. -/
def stepAt : Nat → Heap → Queue → List Thread → Option (Heap × Queue × List Thread)
  | _, _, _, [] => none
  | 0, h, q, t :: ts =>
    match thread_step h q t with
    | some (h1, q1, t1) => some (h1, q1, t1 :: ts)
    | none => none
  | i + 1, h, q, t :: ts =>
    match stepAt i h q ts with
    | some (h1, q1, ts1) => some (h1, q1, t :: ts1)
    | none => none

/-- Run the threads in the order given by the schedule (a list of thread numbers). -/
def runSchedule : List Nat → Sys → Option Sys
  | [], s => some s
  | i :: rest, s =>
    match stepAt i s.heap s.q s.threads with
    | some (h1, q1, ts1) => runSchedule rest { heap := h1, q := q1, threads := ts1 }
    | none => none

/-- Sample programs: one thread pushes the Requests at addresses 1 and 2, another thread
pops three times. -/
def samplePrograms : List (List Call) := [[.push 1, .push 2], [.pop, .pop, .pop]]

/-- Sample schedule: the second push overlaps the first pop; at the end the pusher has
finished and the popper is suspended in its third pop. -/
def sampleSchedule : List Nat := [0, 0, 0, 0, 1, 0, 0, 0, 1, 1, 0, 1, 1, 1, 1, 1]

/-- State reached by the sample programs under the sample schedule. -/
def sampleFinal : Sys :=
  (runSchedule sampleSchedule (start sampleHeap samplePrograms)).getD
    (start sampleHeap samplePrograms)

/-! ## Basic lemmas -/

@[simp] theorem Heap.set_same (h : Heap) (p : Ptr) (v : Option Request) :
    h.set p v p = v := by
  simp [Heap.set]

@[simp] theorem Heap.set_other (h : Heap) (p a : Ptr) (v : Option Request) (hne : a ≠ p) :
    h.set p v a = h a := by
  simp [Heap.set, hne]

theorem linked_unique (h : Heap) : ∀ (l1 l2 : List Ptr) (p : Option Ptr),
    linked h p l1 → linked h p l2 → l1 = l2
  | [], [], _, _, _ => rfl
  | [], _ :: _, p, h1, h2 => by
    simp only [linked] at h1 h2
    rw [h1] at h2
    exact absurd h2.1 (by simp)
  | _ :: _, [], p, h1, h2 => by
    simp only [linked] at h1 h2
    rw [h2] at h1
    exact absurd h1.1 (by simp)
  | x :: xs, y :: ys, p, h1, h2 => by
    simp only [linked] at h1 h2
    obtain ⟨hp1, nd1, hx1, hl1⟩ := h1
    obtain ⟨hp2, nd2, hx2, hl2⟩ := h2
    have hxy : x = y := by
      rw [hp1] at hp2
      exact Option.some.inj hp2
    subst hxy
    rw [hx1] at hx2
    have hnd : nd1 = nd2 := Option.some.inj hx2
    subst hnd
    rw [linked_unique h xs ys _ hl1 hl2]

theorem linked_frame (h h' : Heap) : ∀ (l : List Ptr) (p : Option Ptr),
    linked h p l → (∀ x ∈ l, h' x = h x) → linked h' p l
  | [], _, hl, _ => hl
  | x :: xs, p, hl, hfr => by
    simp only [linked] at hl ⊢
    obtain ⟨hp, nd, hx, hrest⟩ := hl
    refine ⟨hp, nd, ?_, ?_⟩
    · rw [hfr x (List.mem_cons_self _ _)]
      exact hx
    · exact linked_frame h h' xs _ hrest (fun y hy => hfr y (List.mem_cons_of_mem _ hy))

theorem linked_mem_alloc (h : Heap) : ∀ (l : List Ptr) (p : Option Ptr),
    linked h p l → ∀ x ∈ l, ∃ nd, h x = some nd
  | [], _, _, x, hx => by simp at hx
  | y :: ys, p, hl, x, hx => by
    simp only [linked] at hl
    obtain ⟨_, nd, hy, hrest⟩ := hl
    rcases List.mem_cons.mp hx with hxy | hxy
    · subst hxy
      exact ⟨nd, hy⟩
    · exact linked_mem_alloc h ys _ hrest x hxy

theorem linked_snoc (h h2 : Heap) (r t : Ptr) (ndt ndr : Request)
    (ht : h t = some ndt) (h2t : h2 t = some { ndt with next := some r })
    (h2r : h2 r = some ndr) (hnext : ndr.next = none)
    (hfr : ∀ x, x ≠ t → x ≠ r → h2 x = h x) :
    ∀ (l : List Ptr) (p : Option Ptr), linked h p l → l.getLast? = some t → l.Nodup → r ∉ l →
      linked h2 p (l ++ [r])
  | [], _, _, hlast, _, _ => by simp at hlast
  | [x], p, hl, hlast, _, _ => by
    have hxt : x = t := by simpa using hlast
    subst hxt
    simp only [linked] at hl
    obtain ⟨hp, nd, hx, _⟩ := hl
    rw [ht] at hx
    simp only [List.singleton_append, linked]
    exact ⟨hp, _, h2t, rfl, ndr, h2r, hnext⟩
  | x :: y :: ys, p, hl, hlast, hnd, hr => by
    simp only [linked] at hl
    obtain ⟨hp, nd, hx, hrest⟩ := hl
    have hlast2 : (y :: ys).getLast? = some t := by
      simpa [List.getLast?_cons_cons] using hlast
    have htmem : t ∈ y :: ys := List.mem_of_getLast?_eq_some hlast2
    have hnd2 : (y :: ys).Nodup := (List.nodup_cons.mp hnd).2
    have hxnot : x ∉ y :: ys := (List.nodup_cons.mp hnd).1
    have hxt : x ≠ t := fun e => hxnot (e ▸ htmem)
    have hxr : x ≠ r := fun e => hr (e ▸ List.mem_cons_self _ _)
    have hr2 : r ∉ y :: ys := fun hm => hr (List.mem_cons_of_mem _ hm)
    have ih := linked_snoc h h2 r t ndt ndr ht h2t h2r hnext hfr (y :: ys) nd.next
      (by simpa [linked] using hrest) hlast2 hnd2 hr2
    show linked h2 p (x :: ((y :: ys) ++ [r]))
    simp only [linked]
    refine ⟨hp, nd, ?_, ?_⟩
    · rw [hfr x hxt hxr]
      exact hx
    · simpa [linked] using ih

/-- Effect of the critical section of `queue_push` on a Request that is allocated and not
in the queue. -/
theorem push_body_spec (h : Heap) (q : Queue) (l : List Ptr) (p : Ptr) (nd : Request)
    (hc : Chain h q l) (hp : h p = some nd) (hnot : p ∉ l) :
    ∃ h1 q1, push_body h q (some p) = .ok (h1, q1) ∧ Chain h1 q1 (l ++ [p]) ∧
      q1.Lock = q.Lock ∧ q1.produced = q.produced ∧
      (∀ x ndx, h x = some ndx → ∃ ndx1, h1 x = some ndx1 ∧ ndx1.payload = ndx.payload) ∧
      (∀ x, h x = none → h1 x = none) ∧
      (∀ x, x ∉ l → x ≠ p → h1 x = h x) ∧
      h1 p = some { nd with next := none } := by
  obtain ⟨hchain, hnodup, hsize, htail⟩ := hc
  rcases List.eq_nil_or_concat l with hl | ⟨l0, t, hl⟩
  · subst hl
    have hs0 : q.size = 0 := by simpa using hsize
    refine ⟨h.set p (some { nd with next := none }),
      { head := some p, tail := some p, size := q.size + 1, produced := q.produced,
        Lock := q.Lock }, ?_, ?_, rfl, rfl, ?_, ?_, ?_, Heap.set_same _ _ _⟩
    · simp [push_body, hs0, hp]
    · refine ⟨?_, by simp, ?_, ?_⟩
      · simp [linked]
      · simp [hs0]
      · intro t ht
        simp at ht
        simp [ht]
    · intro x ndx hx
      by_cases hxp : x = p
      · subst hxp
        rw [hp] at hx
        cases hx
        exact ⟨_, Heap.set_same _ _ _, rfl⟩
      · exact ⟨ndx, by rw [Heap.set_other _ _ _ _ hxp]; exact hx, rfl⟩
    · intro x hx
      have hxp : x ≠ p := fun e => by rw [e, hp] at hx; cases hx
      rw [Heap.set_other _ _ _ _ hxp]
      exact hx
    · intro x _ hxp
      exact Heap.set_other _ _ _ _ hxp
  · rw [List.concat_eq_append] at hl
    subst hl
    have hlast : (l0 ++ [t]).getLast? = some t := by simp
    have htail' := htail t hlast
    have htmem : t ∈ l0 ++ [t] := by simp
    obtain ⟨ndt, hndt⟩ := linked_mem_alloc h _ _ hchain t htmem
    have htp : t ≠ p := fun e => hnot (e ▸ htmem)
    have hpt : p ≠ t := fun e => htp e.symm
    have hsz : q.size ≠ 0 := by
      rw [hsize]
      simp
      omega
    refine ⟨(h.set t (some { ndt with next := some p })).set p (some { nd with next := none }),
      { head := q.head, tail := some p, size := q.size + 1, produced := q.produced,
        Lock := q.Lock }, ?_, ?_, rfl, rfl, ?_, ?_, ?_, Heap.set_same _ _ _⟩
    · simp [push_body, hsz, htail', hndt, hp, Heap.set_other _ _ _ _ hpt]
    · refine ⟨?_, ?_, ?_, ?_⟩
      · refine linked_snoc h _ p t ndt { nd with next := none } hndt ?_ ?_ rfl ?_ _ _ hchain
          hlast hnodup hnot
        · rw [Heap.set_other _ _ _ _ htp]
          exact Heap.set_same _ _ _
        · exact Heap.set_same _ _ _
        · intro x hxt hxp
          rw [Heap.set_other _ _ _ _ hxp, Heap.set_other _ _ _ _ hxt]
      · exact List.nodup_append.mpr ⟨hnodup, by simp, by
          intro a ha hb
          have : a = p := by simpa using hb
          exact hnot (this ▸ ha)⟩
      · simp [hsize]
        omega
      · intro t2 ht2
        have : p = t2 := by simpa using ht2
        simp [this]
    · intro x ndx hx
      by_cases hxp : x = p
      · subst hxp
        rw [hp] at hx
        cases hx
        exact ⟨_, Heap.set_same _ _ _, rfl⟩
      · by_cases hxt : x = t
        · subst hxt
          rw [hndt] at hx
          cases hx
          exact ⟨{ ndt with next := some p },
            by rw [Heap.set_other _ _ _ _ hxp]; exact Heap.set_same _ _ _, rfl⟩
        · exact ⟨ndx, by rw [Heap.set_other _ _ _ _ hxp, Heap.set_other _ _ _ _ hxt]; exact hx,
            rfl⟩
    · intro x hx
      have hxp : x ≠ p := fun e => by rw [e, hp] at hx; cases hx
      have hxt : x ≠ t := fun e => by rw [e, hndt] at hx; cases hx
      rw [Heap.set_other _ _ _ _ hxp, Heap.set_other _ _ _ _ hxt]
      exact hx
    · intro x hxl hxp
      have hxt : x ≠ t := fun e => hxl (e ▸ htmem)
      rw [Heap.set_other _ _ _ _ hxp, Heap.set_other _ _ _ _ hxt]

/-- Effect of the critical section of `queue_pop` on a non-empty queue. -/
theorem pop_body_spec (h : Heap) (q : Queue) (p : Ptr) (l : List Ptr)
    (hc : Chain h q (p :: l)) :
    ∃ q1, pop_body h q = .ok (q1, some p) ∧ Chain h q1 l ∧
      q1.Lock = q.Lock ∧ q1.produced = q.produced := by
  obtain ⟨hchain, hnodup, hsize, htail⟩ := hc
  simp only [linked] at hchain
  obtain ⟨hhead, nd, hnd, hrest⟩ := hchain
  refine ⟨Queue.mk nd.next q.tail (q.size - 1) q.produced q.Lock, ?_, ?_, rfl, rfl⟩
  · simp [pop_body, hhead, hnd]
  · refine ⟨hrest, (List.nodup_cons.mp hnodup).2, ?_, ?_⟩
    · simp [hsize]
    · intro t ht
      apply htail
      cases l with
      | nil => simp at ht
      | cons y ys => simpa [List.getLast?_cons_cons] using ht

theorem WF.toChain {h : Heap} {q : Queue} {l : List Ptr} (hwf : WF h q l) : Chain h q l :=
  ⟨hwf.chain, hwf.nodup, hwf.size_eq, hwf.tail_last⟩

/-- Effect of one `queue_push` of a Request that is allocated and not in the queue. -/
theorem queue_push_spec (h : Heap) (q : Queue) (l : List Ptr) (p : Ptr) (nd : Request)
    (hwf : WF h q l) (hp : h p = some nd) (hnot : p ∉ l) :
    ∃ h1 q1, queue_push h q (some p) = .ok (h1, q1) ∧ WF h1 q1 (l ++ [p]) ∧
      (∀ x ndx, h x = some ndx → ∃ ndx1, h1 x = some ndx1 ∧ ndx1.payload = ndx.payload) ∧
      (∀ x, h x = none → h1 x = none) ∧
      (∀ x, x ∉ l → x ≠ p → h1 x = h x) ∧
      h1 p = some { nd with next := none } := by
  have hc0 : Chain h { q with Lock := 0 } l :=
    ⟨hwf.chain, hwf.nodup, hwf.size_eq, hwf.tail_last⟩
  obtain ⟨h1, q1, hbody, hc1, hlk, hpr, hpay, hnone, hfr, hnode⟩ :=
    push_body_spec h { q with Lock := 0 } l p nd hc0 hp hnot
  refine ⟨h1, { q1 with Lock := sem_post q1.Lock, produced := sem_post q1.produced }, ?_, ?_,
    hpay, hnone, hfr, hnode⟩
  · simp [queue_push, sem_wait, hwf.lock_free, hbody]
  · refine ⟨hc1.chain, hc1.nodup, hc1.size_eq, ?_, ?_, hc1.tail_last⟩
    · have := hwf.produced_eq
      simp only [sem_post, hpr]
      simp [this]
    · simp [sem_post, hlk]

/-- Effect of one `queue_pop` on a non-empty queue. -/
theorem queue_pop_spec (h : Heap) (q : Queue) (p : Ptr) (l : List Ptr)
    (hwf : WF h q (p :: l)) :
    ∃ q1, queue_pop h q = .ok (q1, some p) ∧ WF h q1 l := by
  have hc0 : Chain h { q with produced := l.length, Lock := 0 } (p :: l) :=
    ⟨hwf.chain, hwf.nodup, hwf.size_eq, hwf.tail_last⟩
  obtain ⟨q1, hbody, hc1, hlk, hpr⟩ := pop_body_spec h _ p l hc0
  refine ⟨{ q1 with Lock := sem_post q1.Lock }, ?_, ?_⟩
  · have hprod : q.produced = l.length + 1 := by simpa using hwf.produced_eq
    simp [queue_pop, sem_wait, hwf.lock_free, hprod, hbody]
  · exact ⟨hc1.chain, hc1.nodup, hc1.size_eq, by simp [hpr], by simp [sem_post, hlk],
      hc1.tail_last⟩

theorem wf_of_empty (h : Heap) (q : Queue) (hq : EmptyQ q) : WF h q [] := by
  obtain ⟨h1, h2, h3, h4⟩ := hq
  exact ⟨h1, List.nodup_nil, by simpa using h2, by simpa using h3, h4, by simp⟩

theorem empty_of_wf (h : Heap) (q : Queue) (hwf : WF h q []) : EmptyQ q :=
  ⟨hwf.chain, by simpa using hwf.size_eq, by simpa using hwf.produced_eq, hwf.lock_free⟩

theorem pushAll_spec : ∀ (ps : List Ptr) (h : Heap) (q : Queue) (l : List Ptr),
    WF h q l → ps.Nodup → (∀ p ∈ ps, p ∉ l) → (∀ p ∈ ps, ∃ nd, h p = some nd) →
    ∃ h1 q1, pushAll h q ps = .ok (h1, q1) ∧ WF h1 q1 (l ++ ps) ∧
      (∀ x ndx, h x = some ndx → ∃ ndx1, h1 x = some ndx1 ∧ ndx1.payload = ndx.payload)
  | [], h, q, l, hwf, _, _, _ =>
    ⟨h, q, rfl, by simpa using hwf, fun x ndx hx => ⟨ndx, hx, rfl⟩⟩
  | p :: ps, h, q, l, hwf, hnd, hnot, hal => by
    obtain ⟨nd, hp⟩ := hal p (List.mem_cons_self _ _)
    obtain ⟨h1, q1, hpush, hwf1, hpay1, _, _⟩ :=
      queue_push_spec h q l p nd hwf hp (hnot p (List.mem_cons_self _ _))
    have hnd2 := List.nodup_cons.mp hnd
    obtain ⟨h2, q2, hrest, hwf2, hpay2⟩ := pushAll_spec ps h1 q1 (l ++ [p]) hwf1 hnd2.2
      (by
        intro x hx hmem
        rcases List.mem_append.mp hmem with hm | hm
        · exact hnot x (List.mem_cons_of_mem _ hx) hm
        · have : x = p := by simpa using hm
          exact hnd2.1 (this ▸ hx))
      (by
        intro x hx
        obtain ⟨ndx, hndx⟩ := hal x (List.mem_cons_of_mem _ hx)
        obtain ⟨ndx1, h1x, _⟩ := hpay1 x ndx hndx
        exact ⟨ndx1, h1x⟩)
    refine ⟨h2, q2, ?_, ?_, ?_⟩
    · simp [pushAll, hpush, hrest]
    · simpa using hwf2
    · intro x ndx hx
      obtain ⟨ndx1, h1x, e1⟩ := hpay1 x ndx hx
      obtain ⟨ndx2, h2x, e2⟩ := hpay2 x ndx1 h1x
      exact ⟨ndx2, h2x, e2.trans e1⟩

theorem popN_spec (h : Heap) : ∀ (l : List Ptr) (q : Queue), WF h q l →
    ∃ q1, popN h q l.length = .ok (q1, l.map some) ∧ WF h q1 []
  | [], q, hwf => ⟨q, rfl, hwf⟩
  | p :: l, q, hwf => by
    obtain ⟨q1, hpop, hwf1⟩ := queue_pop_spec h q p l hwf
    obtain ⟨q2, hrest, hwf2⟩ := popN_spec h l q1 hwf1
    exact ⟨q2, by simp [popN, hpop, hrest], hwf2⟩

theorem queue_push_ok_alloc (h : Heap) (q : Queue) (l : List Ptr) (p : Ptr) (h1 : Heap)
    (q1 : Queue) (hwf : WF h q l) (hnot : p ∉ l)
    (hpush : queue_push h q (some p) = .ok (h1, q1)) : ∃ nd, h p = some nd := by
  cases hp : h p with
  | some nd => exact ⟨nd, rfl⟩
  | none =>
    exfalso
    obtain ⟨hchain, _, hsize, _, hlock, htail⟩ := hwf
    rcases List.eq_nil_or_concat l with hl | ⟨l0, t, hl⟩
    · subst hl
      have hs0 : q.size = 0 := by simpa using hsize
      simp [queue_push, push_body, sem_wait, hlock, hs0, hp] at hpush
    · rw [List.concat_eq_append] at hl
      subst hl
      have htmem : t ∈ l0 ++ [t] := by simp
      obtain ⟨ndt, hndt⟩ := linked_mem_alloc h _ _ hchain t htmem
      have hpt : p ≠ t := fun e => hnot (e ▸ htmem)
      have hsz : q.size ≠ 0 := by
        rw [hsize]
        simp
        omega
      have htl := htail t (by simp)
      simp [queue_push, push_body, sem_wait, hlock, hsz, htl, hndt,
        Heap.set_other _ _ _ _ hpt, hp] at hpush

theorem reach_wf (h : Heap) (q : Queue) (hr : Reach h q) : ∃ l, WF h q l := by
  induction hr with
  | create h => exact ⟨[], wf_of_empty h _ ⟨rfl, rfl, rfl, rfl⟩⟩
  | push h q p h1 q1 _ hnot hpush ih =>
    obtain ⟨l, hwf⟩ := ih
    have hpl : p ∉ l := hnot l hwf.chain
    obtain ⟨nd, hp⟩ := queue_push_ok_alloc h q l p h1 q1 hwf hpl hpush
    obtain ⟨h2, q2, hpush2, hwf2, _⟩ := queue_push_spec h q l p nd hwf hp hpl
    rw [hpush] at hpush2
    cases hpush2
    exact ⟨_, hwf2⟩
  | pop h q q1 r _ hpop ih =>
    obtain ⟨l, hwf⟩ := ih
    cases l with
    | nil =>
      have hpr : q.produced = 0 := by simpa using hwf.produced_eq
      simp [queue_pop, sem_wait, hpr] at hpop
    | cons p l =>
      obtain ⟨q2, hpop2, hwf2⟩ := queue_pop_spec h q p l hwf
      rw [hpop] at hpop2
      cases hpop2
      exact ⟨l, hwf2⟩
  | other h q h1 _ hfr ih =>
    obtain ⟨l, hwf⟩ := ih
    exact ⟨l, linked_frame h h1 l _ hwf.chain (hfr l hwf.chain), hwf.nodup, hwf.size_eq,
      hwf.produced_eq, hwf.lock_free, hwf.tail_last⟩

/-- C1: starting from an empty queue, pushing the distinct allocated Requests `ps` and then
popping `ps.length` times returns exactly the pointers of `ps` in push order; every call
returns, the queue is empty again afterwards, and each Request still carries the method,
uri and body it was pushed with. -/
theorem queue_fifo (h : Heap) (q : Queue) (ps : List Ptr) (hq : EmptyQ q) (hnd : ps.Nodup)
    (hal : ∀ p ∈ ps, (h p).isSome = true) :
    ∃ h1 q1 q2, pushAll h q ps = .ok (h1, q1) ∧
      popN h1 q1 ps.length = .ok (q2, ps.map some) ∧ EmptyQ q2 ∧
      (∀ p ∈ ps, ∀ nd, h p = some nd → ∃ nd1, h1 p = some nd1 ∧ nd1.payload = nd.payload) := by
  obtain ⟨h1, q1, hpush, hwf1, hpay⟩ := pushAll_spec ps h q [] (wf_of_empty h q hq) hnd
    (by simp) (fun p hp => Option.isSome_iff_exists.mp (hal p hp))
  obtain ⟨q2, hpop, hwf2⟩ := popN_spec h1 ps q1 (by simpa using hwf1)
  exact ⟨h1, q1, q2, hpush, hpop, empty_of_wf h1 q2 hwf2, fun p _ nd hp => hpay p nd hp⟩

theorem queue_fifo_witness :
    ∃ h1 q1 q2, pushAll sampleHeap queue_create [1, 2] = .ok (h1, q1) ∧
      popN h1 q1 [1, 2].length = .ok (q2, [1, 2].map some) ∧ EmptyQ q2 ∧
      (∀ p ∈ [1, 2], ∀ nd, sampleHeap p = some nd →
        ∃ nd1, h1 p = some nd1 ∧ nd1.payload = nd.payload) :=
  queue_fifo sampleHeap queue_create [1, 2] ⟨rfl, rfl, rfl, rfl⟩ (by decide) (by decide)

/-- C10: in every queue state reachable from `queue_create` by pushes of Requests not
already in the queue and by pops that return, the nodes linked from `head` through `next`
form a list whose length is the `size` field (also after the queue was drained, leaving
`tail` stale, and pushed to again). -/
theorem size_counts_linked_nodes (h : Heap) (q : Queue) (hr : Reach h q) :
    ∃ l, linked h q.head l ∧ q.size = l.length := by
  obtain ⟨l, hwf⟩ := reach_wf h q hr
  exact ⟨l, hwf.chain, hwf.size_eq⟩

theorem linked_none (h : Heap) (l : List Ptr) (hl : linked h none l) : l = [] := by
  cases l with
  | nil => rfl
  | cons x xs => simp [linked] at hl

theorem stale_reach : Reach staleHeap staleQueue := by
  have s1 : Reach (sampleHeap.set 1 (some (sampleReq "a")))
      { head := some 1, tail := some 1, size := 1, produced := 1, Lock := 1 } :=
    Reach.push sampleHeap queue_create 1 _ _ (Reach.create sampleHeap)
      (fun l hl => by rw [linked_none _ l hl]; simp) rfl
  have s2 : Reach (sampleHeap.set 1 (some (sampleReq "a")))
      { head := none, tail := some 1, size := 0, produced := 0, Lock := 1 } :=
    Reach.pop _ _ _ (some 1) s1 rfl
  exact Reach.push _ _ 2 _ _ s2 (fun l hl => by rw [linked_none _ l hl]; simp) rfl

theorem size_counts_linked_nodes_witness :
    Reach staleHeap staleQueue ∧
      ∃ l, linked staleHeap staleQueue.head l ∧ staleQueue.size = l.length :=
  ⟨stale_reach, size_counts_linked_nodes staleHeap staleQueue stale_reach⟩

/-- C2: `request_write` appends to the stream the line `METHOD URI HTTP/1.0\r\n`, followed
by `Content-Length: N\r\n\r\n` and the body when there is a body (`N` the decimal byte
length of the body), and by `\r\n` alone when there is none; the two examples of the
specification are encoded exactly as given. -/
theorem request_write_format :
    (∀ (m u : String) (b : Option String) (nx : Option Ptr) (out : String),
      request_write { method := m, uri := u, body := b, next := nx } (some out) =
        some (out ++ (m ++ " " ++ u ++ " HTTP/1.0\r\n" ++
          (match b with
           | some s => "Content-Length: " ++ toString s.utf8ByteSize ++ "\r\n\r\n" ++ s
           | none => "\r\n")))) ∧
    request_write { method := "PUT", uri := "/topic/t", body := some "hello", next := none }
        (some "") = some "PUT /topic/t HTTP/1.0\r\nContent-Length: 5\r\n\r\nhello" ∧
    request_write { method := "GET", uri := "/queue/n", body := none, next := none }
        (some "") = some "GET /queue/n HTTP/1.0\r\n\r\n" := by
  refine ⟨?_, by decide, by decide⟩
  intro m u b nx out
  have hcrlf : ("\r\n\r\n" : String) = "\r\n" ++ "\r\n" := by decide
  cases b with
  | none => simp [request_write, String.append_assoc]
  | some s => simp [request_write, String.append_assoc, hcrlf]

/-- C3: on a non-empty incoming queue whose head Request has body `b`, `mq_retrieve`
returns, removes that head Request from the queue and frees it, and its result is NULL
exactly when `b` is the sentinel "SHUTDOWN"; for any other `b` the result is `b`; the
result is never the sentinel text. -/
theorem mq_retrieve_sentinel (mq : MessageQueue) (p : Ptr) (l : List Ptr) (nd : Request)
    (b : String) (hwf : WF mq.heap mq.incoming (p :: l)) (hnd : mq.heap p = some nd)
    (hb : nd.body = some b) :
    ∃ mq1 res, mq_retrieve mq = .ok (mq1, res) ∧
      WF mq1.heap mq1.incoming l ∧ mq1.heap p = none ∧
      (res = none ↔ b = "SHUTDOWN") ∧ (b ≠ "SHUTDOWN" → res = some b) ∧
      res ≠ some "SHUTDOWN" := by
  obtain ⟨q1, hpop, hwf1⟩ := queue_pop_spec mq.heap mq.incoming p l hwf
  have hpl : p ∉ l := (List.nodup_cons.mp hwf.nodup).1
  have hwf2 : WF (mq.heap.set p none) q1 l :=
    ⟨linked_frame _ _ l _ hwf1.chain (fun x hx =>
        Heap.set_other _ _ _ _ (fun e => hpl (e ▸ hx))),
      hwf1.nodup, hwf1.size_eq, hwf1.produced_eq, hwf1.lock_free, hwf1.tail_last⟩
  by_cases hs : b = "SHUTDOWN"
  · refine ⟨{ mq with heap := mq.heap.set p none, incoming := q1 }, none, ?_, hwf2,
      Heap.set_same _ _ _, ?_, ?_, ?_⟩
    · simp [mq_retrieve, hpop, hnd, hb, request_delete, streq, SENTINEL, hs]
    · simp [hs]
    · intro hne
      exact absurd hs hne
    · simp
  · refine ⟨{ mq with heap := mq.heap.set p none, incoming := q1 }, some b, ?_, hwf2,
      Heap.set_same _ _ _, ?_, ?_, ?_⟩
    · have hs2 : ¬ ("SHUTDOWN" = b) := fun e => hs e.symm
      simp [mq_retrieve, hpop, hnd, hb, request_delete, streq, SENTINEL, hs2]
    · simp [hs]
    · intro _
      rfl
    · intro he
      exact hs (Option.some.inj he)

theorem enqueue_outgoing_spec (mq : MessageQueue) (blk : Block) (lo li : List Ptr)
    (method uri : String) (body : Option String)
    (hwo : WF mq.heap mq.outgoing lo) (hwi : WF mq.heap mq.incoming li)
    (hdisj : ∀ x ∈ lo, x ∉ li) (hfresh : mq.heap blk.addr = none) :
    ∃ mq1, enqueue_outgoing mq (some blk) method uri body = .ok mq1 ∧
      AppendedOutgoing mq mq1 lo li blk.addr method uri body := by
  have hplo : blk.addr ∉ lo := by
    intro hm
    obtain ⟨nd, hx⟩ := linked_mem_alloc _ _ _ hwo.chain _ hm
    rw [hfresh] at hx
    cases hx
  have hpli : blk.addr ∉ li := by
    intro hm
    obtain ⟨nd, hx⟩ := linked_mem_alloc _ _ _ hwi.chain _ hm
    rw [hfresh] at hx
    cases hx
  let nd0 : Request := { method := method, uri := uri, body := body, next := blk.next }
  have hwo1 : WF (mq.heap.set blk.addr (some nd0)) mq.outgoing lo :=
    ⟨linked_frame _ _ lo _ hwo.chain (fun x hx =>
        Heap.set_other _ _ _ _ (fun e => hplo (e ▸ hx))),
      hwo.nodup, hwo.size_eq, hwo.produced_eq, hwo.lock_free, hwo.tail_last⟩
  obtain ⟨h2, q2, hpush, hwf2, hpay, _, hfr, hp2⟩ :=
    queue_push_spec (mq.heap.set blk.addr (some nd0)) mq.outgoing lo blk.addr nd0 hwo1
      (Heap.set_same _ _ _) hplo
  have hkeep : ∀ x ∈ li, h2 x = mq.heap x := by
    intro x hx
    have hxp : x ≠ blk.addr := fun e => hpli (e ▸ hx)
    rw [hfr x (fun hm => hdisj x hm hx) hxp]
    exact Heap.set_other _ _ _ _ hxp
  refine ⟨{ mq with heap := h2, outgoing := q2 }, ?_, hwf2, hp2, ?_, rfl, ?_, hkeep, rfl, rfl,
    rfl, rfl⟩
  · simp only [enqueue_outgoing, request_create]
    rw [hpush]
  · intro x hx
    obtain ⟨nd, hnd⟩ := linked_mem_alloc _ _ _ hwo.chain x hx
    have hxp : x ≠ blk.addr := fun e => hplo (e ▸ hx)
    obtain ⟨nd1, h1, e1⟩ := hpay x nd (by rw [Heap.set_other _ _ _ _ hxp]; exact hnd)
    exact ⟨nd, nd1, hnd, h1, e1⟩
  · exact ⟨linked_frame _ _ li _ hwi.chain hkeep, hwi.nodup, hwi.size_eq, hwi.produced_eq,
      hwi.lock_free, hwi.tail_last⟩

/-- C4: with a client named `mq.name`, an outgoing queue holding `lo`, an incoming queue
holding `li`, a freshly allocated block and uris that fit the `BUFSIZ` buffer, each of
`mq_publish`, `mq_subscribe` and `mq_unsubscribe` returns and appends exactly one Request
at the tail of the outgoing queue, leaving the earlier outgoing items and the incoming
queue unchanged: publish appends PUT `/topic/<t>` with body `b`, subscribe appends PUT
`/subscription/<name>/<t>` without body, unsubscribe appends DELETE
`/subscription/<name>/<t>` without body. -/
theorem client_ops_append_one (BUFSIZ : Nat) (mq : MessageQueue) (blk : Block)
    (lo li : List Ptr) (t b : String)
    (hwo : WF mq.heap mq.outgoing lo) (hwi : WF mq.heap mq.incoming li)
    (hdisj : ∀ x ∈ lo, x ∉ li) (hfresh : mq.heap blk.addr = none)
    (hpub : ("/topic/" ++ t).utf8ByteSize < BUFSIZ)
    (hsub : ("/subscription/" ++ mq.name ++ "/" ++ t).utf8ByteSize < BUFSIZ) :
    (∃ mq1, mq_publish BUFSIZ mq (some blk) t (some b) = .ok mq1 ∧
      AppendedOutgoing mq mq1 lo li blk.addr "PUT" ("/topic/" ++ t) (some b)) ∧
    (∃ mq1, mq_subscribe BUFSIZ mq (some blk) t = .ok mq1 ∧
      AppendedOutgoing mq mq1 lo li blk.addr "PUT"
        ("/subscription/" ++ mq.name ++ "/" ++ t) none) ∧
    (∃ mq1, mq_unsubscribe BUFSIZ mq (some blk) t = .ok mq1 ∧
      AppendedOutgoing mq mq1 lo li blk.addr "DELETE"
        ("/subscription/" ++ mq.name ++ "/" ++ t) none) := by
  refine ⟨?_, ?_, ?_⟩
  · obtain ⟨mq1, h1, h2⟩ := enqueue_outgoing_spec mq blk lo li "PUT" ("/topic/" ++ t)
      (some b) hwo hwi hdisj hfresh
    exact ⟨mq1, by simp [mq_publish, sprintf_buf, hpub, h1], h2⟩
  · obtain ⟨mq1, h1, h2⟩ := enqueue_outgoing_spec mq blk lo li "PUT"
      ("/subscription/" ++ mq.name ++ "/" ++ t) none hwo hwi hdisj hfresh
    exact ⟨mq1, by simp [mq_subscribe, sprintf_buf, hsub, h1], h2⟩
  · obtain ⟨mq1, h1, h2⟩ := enqueue_outgoing_spec mq blk lo li "DELETE"
      ("/subscription/" ++ mq.name ++ "/" ++ t) none hwo hwi hdisj hfresh
    exact ⟨mq1, by simp [mq_unsubscribe, sprintf_buf, hsub, h1], h2⟩

theorem pending_wf : WF pendingClient.heap pendingClient.outgoing [1] ∧
    WF pendingClient.heap pendingClient.incoming [] := by
  refine ⟨⟨?_, by simp, rfl, rfl, rfl, ?_⟩, ⟨rfl, by simp, rfl, rfl, rfl, by simp⟩⟩
  · exact ⟨rfl, _, rfl, rfl⟩
  · intro t ht
    have : t = 1 := by simpa using ht.symm
    subst this
    rfl

theorem client_ops_append_one_witness :
    (∃ mq1, mq_publish 8192 pendingClient (some ⟨2, none⟩) "t" (some "b") = .ok mq1 ∧
      AppendedOutgoing pendingClient mq1 [1] [] 2 "PUT" ("/topic/" ++ "t") (some "b")) ∧
    (∃ mq1, mq_subscribe 8192 pendingClient (some ⟨2, none⟩) "t" = .ok mq1 ∧
      AppendedOutgoing pendingClient mq1 [1] [] 2 "PUT"
        ("/subscription/" ++ pendingClient.name ++ "/" ++ "t") none) ∧
    (∃ mq1, mq_unsubscribe 8192 pendingClient (some ⟨2, none⟩) "t" = .ok mq1 ∧
      AppendedOutgoing pendingClient mq1 [1] [] 2 "DELETE"
        ("/subscription/" ++ pendingClient.name ++ "/" ++ "t") none) :=
  client_ops_append_one 8192 pendingClient ⟨2, none⟩ [1] [] "t" "b" pending_wf.1 pending_wf.2
    (by simp) rfl (by decide) (by decide)

theorem mq_retrieve_sentinel_witness :
    WF inboxClient.heap inboxClient.incoming [1] ∧
    ∃ mq1 res, mq_retrieve inboxClient = .ok (mq1, res) ∧
      WF mq1.heap mq1.incoming [] ∧ mq1.heap 1 = none ∧
      (res = none ↔ "a" = "SHUTDOWN") ∧ ("a" ≠ "SHUTDOWN" → res = some "a") ∧
      res ≠ some "SHUTDOWN" :=
  have hwf : WF inboxClient.heap inboxClient.incoming [1] :=
    ⟨⟨rfl, _, rfl, rfl⟩, by simp, rfl, rfl, rfl, fun t ht => by
      have : t = 1 := by simpa using ht.symm
      subst this
      rfl⟩
  ⟨hwf, mq_retrieve_sentinel inboxClient 1 [] (sampleReq "a") "a" hwf rfl rfl⟩

/-- C6 (as stated, refuted): in a client state whose shutdown flag `mq_stop` has set, each of
`mq_publish`, `mq_subscribe` and `mq_unsubscribe` still returns with an outgoing queue
different from the one before the call. -/
theorem ops_after_shutdown_still_enqueue :
    stoppedClient.shutdown = true ∧
    (∃ mq1, mq_publish 8192 stoppedClient (some ⟨2, none⟩) "chat" (some "hi") = .ok mq1 ∧
      mq1.outgoing ≠ stoppedClient.outgoing) ∧
    (∃ mq1, mq_subscribe 8192 stoppedClient (some ⟨2, none⟩) "chat" = .ok mq1 ∧
      mq1.outgoing ≠ stoppedClient.outgoing) ∧
    (∃ mq1, mq_unsubscribe 8192 stoppedClient (some ⟨2, none⟩) "chat" = .ok mq1 ∧
      mq1.outgoing ≠ stoppedClient.outgoing) :=
  ⟨rfl, ⟨_, rfl, by decide⟩, ⟨_, rfl, by decide⟩, ⟨_, rfl, by decide⟩⟩

/-- C6 (amended): the three operations do not consult the shutdown flag. In a client state
whose flag is true they behave as otherwise: each returns, appends exactly one Request at
the tail of the outgoing queue (its `size` grows by one) and leaves the flag true. -/
theorem ops_ignore_shutdown_flag (BUFSIZ : Nat) (mq : MessageQueue) (blk : Block)
    (lo li : List Ptr) (t b : String)
    (hflag : mq.shutdown = true)
    (hwo : WF mq.heap mq.outgoing lo) (hwi : WF mq.heap mq.incoming li)
    (hdisj : ∀ x ∈ lo, x ∉ li) (hfresh : mq.heap blk.addr = none)
    (hpub : ("/topic/" ++ t).utf8ByteSize < BUFSIZ)
    (hsub : ("/subscription/" ++ mq.name ++ "/" ++ t).utf8ByteSize < BUFSIZ) :
    (∃ mq1, mq_publish BUFSIZ mq (some blk) t (some b) = .ok mq1 ∧
      WF mq1.heap mq1.outgoing (lo ++ [blk.addr]) ∧
      mq1.outgoing.size = mq.outgoing.size + 1 ∧ mq1.shutdown = true) ∧
    (∃ mq1, mq_subscribe BUFSIZ mq (some blk) t = .ok mq1 ∧
      WF mq1.heap mq1.outgoing (lo ++ [blk.addr]) ∧
      mq1.outgoing.size = mq.outgoing.size + 1 ∧ mq1.shutdown = true) ∧
    (∃ mq1, mq_unsubscribe BUFSIZ mq (some blk) t = .ok mq1 ∧
      WF mq1.heap mq1.outgoing (lo ++ [blk.addr]) ∧
      mq1.outgoing.size = mq.outgoing.size + 1 ∧ mq1.shutdown = true) := by
  have key : ∀ (method uri : String) (body : Option String),
      ∃ mq1, enqueue_outgoing mq (some blk) method uri body = .ok mq1 ∧
        WF mq1.heap mq1.outgoing (lo ++ [blk.addr]) ∧
        mq1.outgoing.size = mq.outgoing.size + 1 ∧ mq1.shutdown = true := by
    intro method uri body
    obtain ⟨mq1, h1, hwf, _, _, _, _, _, hsh, _⟩ :=
      enqueue_outgoing_spec mq blk lo li method uri body hwo hwi hdisj hfresh
    refine ⟨mq1, h1, hwf, ?_, hsh.trans hflag⟩
    rw [hwf.size_eq, hwo.size_eq]
    simp
  refine ⟨?_, ?_, ?_⟩
  · obtain ⟨mq1, h1, h2⟩ := key "PUT" ("/topic/" ++ t) (some b)
    exact ⟨mq1, by simp [mq_publish, sprintf_buf, hpub, h1], h2⟩
  · obtain ⟨mq1, h1, h2⟩ := key "PUT" ("/subscription/" ++ mq.name ++ "/" ++ t) none
    exact ⟨mq1, by simp [mq_subscribe, sprintf_buf, hsub, h1], h2⟩
  · obtain ⟨mq1, h1, h2⟩ := key "DELETE" ("/subscription/" ++ mq.name ++ "/" ++ t) none
    exact ⟨mq1, by simp [mq_unsubscribe, sprintf_buf, hsub, h1], h2⟩

theorem stopped_wf : WF stoppedClient.heap stoppedClient.outgoing [1] ∧
    WF stoppedClient.heap stoppedClient.incoming [] := by
  refine ⟨⟨?_, by simp, rfl, rfl, rfl, ?_⟩, ⟨rfl, by simp, rfl, rfl, rfl, by simp⟩⟩
  · exact ⟨rfl, _, rfl, rfl⟩
  · intro t ht
    have : t = 1 := by simpa using ht.symm
    subst this
    rfl

theorem ops_ignore_shutdown_flag_witness :
    stoppedClient.shutdown = true ∧
    (∃ mq1, mq_publish 8192 stoppedClient (some ⟨2, none⟩) "t" (some "b") = .ok mq1 ∧
      WF mq1.heap mq1.outgoing ([1] ++ [2]) ∧
      mq1.outgoing.size = stoppedClient.outgoing.size + 1 ∧ mq1.shutdown = true) ∧
    (∃ mq1, mq_subscribe 8192 stoppedClient (some ⟨2, none⟩) "t" = .ok mq1 ∧
      WF mq1.heap mq1.outgoing ([1] ++ [2]) ∧
      mq1.outgoing.size = stoppedClient.outgoing.size + 1 ∧ mq1.shutdown = true) ∧
    (∃ mq1, mq_unsubscribe 8192 stoppedClient (some ⟨2, none⟩) "t" = .ok mq1 ∧
      WF mq1.heap mq1.outgoing ([1] ++ [2]) ∧
      mq1.outgoing.size = stoppedClient.outgoing.size + 1 ∧ mq1.shutdown = true) :=
  ⟨rfl, ops_ignore_shutdown_flag 8192 stoppedClient ⟨2, none⟩ [1] [] "t" "b" rfl
    stopped_wf.1 stopped_wf.2 (by simp) rfl (by decide) (by decide)⟩

/-- C5 (as stated, refuted): `mq_stop` is invoked while the outgoing queue holds one pending
Request; the sentinel is appended after it and the flag is set. The Pusher, evaluating its
loop condition next, returns at once: nothing has been transmitted and both Requests are
still in the outgoing queue. -/
theorem pusher_exits_without_draining :
    ∃ mq1 mq2, mq_stop_signal 8192 pendingClient (some ⟨2, none⟩) = .ok mq1 ∧
      linked mq1.heap mq1.outgoing.head [1, 2] ∧
      mq_pusher 3 mq1 [some silentSocket, some silentSocket] = .ok (mq2, true) ∧
      mq2.wire = [] ∧ mq2.outgoing.size = 2 ∧ linked mq2.heap mq2.outgoing.head [1, 2] :=
  ⟨_, _, rfl, ⟨rfl, _, rfl, rfl, _, rfl, rfl⟩, rfl, rfl, rfl, ⟨rfl, _, rfl, rfl, _, rfl, rfl⟩⟩

/-- C5 (amended): when `mq_stop` is invoked while the outgoing queue holds the pending
Requests `lo`, the sentinel Request PUT `/topic/SHUTDOWN` with body `SHUTDOWN` is appended
after them and the shutdown flag is set; a Pusher that evaluates its loop condition
afterwards returns without popping or transmitting anything, leaving the client state, and
so every Request still queued, as it is. -/
theorem stop_appends_sentinel_then_pusher_exits (BUFSIZ : Nat) (mq : MessageQueue)
    (blk : Block) (lo li : List Ptr)
    (hwo : WF mq.heap mq.outgoing lo) (hwi : WF mq.heap mq.incoming li)
    (hdisj : ∀ x ∈ lo, x ∉ li) (hfresh : mq.heap blk.addr = none)
    (hlock : mq.Lock = 1) (hbuf : ("/topic/" ++ SENTINEL).utf8ByteSize < BUFSIZ) :
    ∃ mq1, mq_stop_signal BUFSIZ mq (some blk) = .ok mq1 ∧
      WF mq1.heap mq1.outgoing (lo ++ [blk.addr]) ∧
      mq1.heap blk.addr =
        some { method := "PUT", uri := "/topic/SHUTDOWN", body := some "SHUTDOWN", next := none } ∧
      mq1.shutdown = true ∧
      ∀ (fuel : Nat) (conns : List (Option Socket)),
        mq_pusher (fuel + 1) mq1 conns = .ok (mq1, true) := by
  obtain ⟨mq0, h0, hwf, hnode, _, _, _, _, _, hlk, _⟩ :=
    enqueue_outgoing_spec mq blk lo li "PUT" ("/topic/" ++ SENTINEL) (some SENTINEL)
      hwo hwi hdisj hfresh
  have hlk0 : mq0.Lock = 1 := hlk.trans hlock
  refine ⟨{ mq0 with shutdown := true, Lock := 1 }, ?_, hwf, hnode, rfl, ?_⟩
  · simp [mq_stop_signal, mq_publish, sprintf_buf, hbuf, h0, hlk0, sem_wait, sem_post]
  · intro fuel conns
    simp [mq_pusher, mq_shutdown, sem_wait, sem_post]

theorem stop_appends_sentinel_then_pusher_exits_witness :
    ∃ mq1, mq_stop_signal 8192 pendingClient (some ⟨2, none⟩) = .ok mq1 ∧
      WF mq1.heap mq1.outgoing ([1] ++ [2]) ∧
      mq1.heap 2 =
        some { method := "PUT", uri := "/topic/SHUTDOWN", body := some "SHUTDOWN", next := none } ∧
      mq1.shutdown = true ∧
      ∀ (fuel : Nat) (conns : List (Option Socket)),
        mq_pusher (fuel + 1) mq1 conns = .ok (mq1, true) :=
  stop_appends_sentinel_then_pusher_exits 8192 pendingClient ⟨2, none⟩ [1] []
    pending_wf.1 pending_wf.2 (by simp) rfl rfl (by decide)

/-- C8 (code defect): one Pusher iteration on a client whose outgoing queue holds the
Request at address 1. When `socket_connect` fails the iteration ends with the Request
popped (the queue is empty) but still allocated: it was not released. When the connection
succeeds the same Request is written and freed. -/
theorem pusher_connect_failure_keeps_request :
    (∃ mq1, mq_pusher_iter pendingClient none = .ok mq1 ∧
      mq1.outgoing.head = none ∧ mq1.outgoing.size = 0 ∧
      mq1.incoming = pendingClient.incoming ∧ mq1.wire = [] ∧
      mq1.heap 1 =
        some { method := "PUT", uri := "/topic/chat", body := some "hi", next := none }) ∧
    (∃ mq1, mq_pusher_iter pendingClient (some silentSocket) = .ok mq1 ∧
      mq1.outgoing.head = none ∧ mq1.outgoing.size = 0 ∧
      mq1.wire = ["PUT /topic/chat HTTP/1.0\r\nContent-Length: 2\r\n\r\nhi"] ∧
      mq1.heap 1 = none) :=
  ⟨⟨_, rfl, rfl, rfl, rfl, rfl, rfl⟩, ⟨_, rfl, rfl, rfl, by decide, rfl⟩⟩

/-- C9 (code defect): one Puller iteration reading a response whose status line contains
`200 OK` but whose header block is never closed by a blank line. The iteration is not
discarded: a Request is pushed on the incoming queue, its body being whatever the
uninitialised array `body` happened to contain. -/
theorem puller_pushes_after_truncated_headers :
    ∃ mq1, mq_puller_iter 8192 aliceClient (some ⟨"", truncatedResponse⟩) (some ⟨1, none⟩)
        (some ⟨1, none⟩) "stale" = .ok mq1 ∧
      aliceClient.incoming.size = 0 ∧ mq1.incoming.size = 1 ∧
      mq1.incoming.head = some 1 ∧
      mq1.heap 1 =
        some { method := "GET", uri := "/queue/alice", body := some "stale", next := none } :=
  ⟨_, rfl, rfl, rfl, rfl, rfl⟩

/-! ## Concurrent executions -/

theorem gather_append (f : Thread → List Ptr) (a b : List Thread) :
    gather f (a ++ b) = gather f a ++ gather f b := by
  induction a with
  | nil => rfl
  | cons t ts ih => simp [gather, ih]

theorem gather_mid (f : Thread → List Ptr) (pre post : List Thread) (t : Thread) :
    gather f (pre ++ t :: post) = gather f pre ++ (f t ++ gather f post) := by
  rw [gather_append]
  rfl

theorem mem_gather (f : Thread → List Ptr) (ts : List Thread) (t : Thread) (x : Ptr)
    (ht : t ∈ ts) (hx : x ∈ f t) : x ∈ gather f ts := by
  obtain ⟨pre, post, rfl⟩ := List.append_of_mem ht
  rw [gather_mid]
  simp [hx]

theorem sum_mid (f : Thread → Nat) (pre post : List Thread) (t : Thread) :
    ((pre ++ t :: post).map f).sum = (pre.map f).sum + f t + (post.map f).sum := by
  simp [Nat.add_assoc]

theorem own_step (pre post : List Thread) (t t1 : Thread) (l l1 P : List Ptr)
    (hlocal : List.Perm (t1.unpushed ++ l1 ++ t1.inflight ++ t1.returned)
      (t.unpushed ++ l ++ t.inflight ++ t.returned))
    (hown : List.Perm (gather Thread.unpushed (pre ++ t :: post) ++ l ++
      gather Thread.inflight (pre ++ t :: post) ++
      gather Thread.returned (pre ++ t :: post)) P) :
    List.Perm (gather Thread.unpushed (pre ++ t1 :: post) ++ l1 ++
      gather Thread.inflight (pre ++ t1 :: post) ++
      gather Thread.returned (pre ++ t1 :: post)) P := by
  refine List.Perm.trans ?_ hown
  rw [← Multiset.coe_eq_coe] at hlocal ⊢
  simp only [gather_mid, ← Multiset.coe_add] at hlocal ⊢
  generalize (↑(t1.unpushed) : Multiset Ptr) = a1 at hlocal ⊢
  generalize (↑(t1.inflight) : Multiset Ptr) = c1 at hlocal ⊢
  generalize (↑(t1.returned) : Multiset Ptr) = d1 at hlocal ⊢
  generalize (↑l1 : Multiset Ptr) = b1 at hlocal ⊢
  generalize (↑(t.unpushed) : Multiset Ptr) = a at hlocal ⊢
  generalize (↑(t.inflight) : Multiset Ptr) = c at hlocal ⊢
  generalize (↑(t.returned) : Multiset Ptr) = d at hlocal ⊢
  generalize (↑l : Multiset Ptr) = b at hlocal ⊢
  generalize (↑(gather Thread.unpushed pre) : Multiset Ptr) = A
  generalize (↑(gather Thread.unpushed post) : Multiset Ptr) = B
  generalize (↑(gather Thread.inflight pre) : Multiset Ptr) = C
  generalize (↑(gather Thread.inflight post) : Multiset Ptr) = D
  generalize (↑(gather Thread.returned pre) : Multiset Ptr) = E
  generalize (↑(gather Thread.returned post) : Multiset Ptr) = F
  have e1 : A + (a1 + B) + b1 + (C + (c1 + D)) + (E + (d1 + F)) =
      (a1 + b1 + c1 + d1) + (A + B + C + D + E + F) := by abel
  have e2 : A + (a + B) + b + (C + (c + D)) + (E + (d + F)) =
      (a + b + c + d) + (A + B + C + D + E + F) := by abel
  rw [e1, e2, hlocal]

theorem inv_update (P : List Ptr) (h : Heap) (q : Queue) (pre post : List Thread)
    (t : Thread) (l : List Ptr) (h1 : Heap) (q1 : Queue) (t1 : Thread) (l1 : List Ptr)
    (hinv : Inv P { heap := h, q := q, threads := pre ++ t :: post } l)
    (hchain : Chain h1 q1 l1)
    (hlock : q1.Lock + t1.pc.holds = q.Lock + t.pc.holds)
    (havail : l1.length + q.produced + t.pc.credit = l.length + q1.produced + t1.pc.credit)
    (hlocal : List.Perm (t1.unpushed ++ l1 ++ t1.inflight ++ t1.returned)
      (t.unpushed ++ l ++ t.inflight ++ t.returned))
    (halloc : ∀ x, (∃ nd, h x = some nd) → ∃ nd, h1 x = some nd)
    (hnn : none ∉ t1.got ∧ t1.pc ≠ .pop_unlock none) :
    Inv P { heap := h1, q := q1, threads := pre ++ t1 :: post } l1 := by
  obtain ⟨_, ilock, iavail, iown, inodup, ialloc, inn⟩ := hinv
  simp only [sum_mid] at ilock iavail
  refine ⟨hchain, ?_, ?_, own_step pre post t t1 l l1 P hlocal iown, inodup,
    fun p hp => halloc p (ialloc p hp), ?_⟩
  · simp only [sum_mid]
    omega
  · simp only [sum_mid]
    omega
  · intro x hx
    rcases List.mem_append.mp hx with hm | hm
    · exact inn x (List.mem_append_left _ hm)
    · rcases List.mem_cons.mp hm with hm | hm
      · rw [hm]
        exact hnn
      · exact inn x (List.mem_append_right _ (List.mem_cons_of_mem _ hm))

theorem inv_mem_facts (P : List Ptr) (s : Sys) (l : List Ptr) (hinv : Inv P s l)
    (t : Thread) (ht : t ∈ s.threads) (r : Ptr) (hr : r ∈ t.unpushed) :
    (∃ nd, s.heap r = some nd) ∧ r ∉ l := by
  have hmem : r ∈ gather Thread.unpushed s.threads := mem_gather _ _ t r ht hr
  have hnd : (gather Thread.unpushed s.threads ++ l ++ gather Thread.inflight s.threads ++
      gather Thread.returned s.threads).Nodup := hinv.own.nodup_iff.mpr hinv.nodup
  refine ⟨hinv.alloc r (hinv.own.subset (by simp [hmem])), ?_⟩
  intro hl
  rw [List.append_assoc, List.append_assoc] at hnd
  have hdis := (List.nodup_append.mp hnd).2.2
  exact hdis hmem (by simp [hl]) 

theorem credit_le_length (P : List Ptr) (s : Sys) (l : List Ptr) (hinv : Inv P s l)
    (t : Thread) (ht : t ∈ s.threads) : t.pc.credit ≤ l.length := by
  obtain ⟨pre, post, hths⟩ := List.append_of_mem ht
  have := hinv.avail
  rw [hths, sum_mid] at this
  omega

theorem chain_congr {h : Heap} {q q1 : Queue} {l : List Ptr} (hc : Chain h q l)
    (hh : q1.head = q.head) (ht : q1.tail = q.tail) (hs : q1.size = q.size) :
    Chain h q1 l :=
  ⟨hh ▸ hc.chain, hc.nodup, hs ▸ hc.size_eq, fun t h0 => ht ▸ hc.tail_last t h0⟩

theorem step_inv (P : List Ptr) (s s1 : Sys) (l : List Ptr) (hinv : Inv P s l)
    (hstep : Step s s1) : ∃ l1, Inv P s1 l1 := by
  obtain ⟨pre, t, post, h1, q1, t1, hths, hts, rfl⟩ := hstep
  obtain ⟨h, q, ths⟩ := s
  simp only at hths hts
  subst hths
  have htmem : t ∈ pre ++ t :: post := by simp
  have hnnt := hinv.nonnull t htmem
  obtain ⟨pc, todo, got⟩ := t
  cases pc with
  | idle =>
    cases todo with
    | nil => simp [thread_step] at hts
    | cons c rest =>
      cases c with
      | push r =>
        cases hlk : q.Lock with
        | zero => simp [thread_step, sem_wait, hlk] at hts
        | succ n =>
          simp only [thread_step, sem_wait, hlk, Option.some.injEq, Prod.mk.injEq] at hts
          obtain ⟨rfl, rfl, rfl⟩ := hts
          refine ⟨l, inv_update P h q pre post _ l _ _ _ l hinv
            (chain_congr hinv.chain rfl rfl rfl) ?_ ?_ ?_ (fun x hx => hx) ?_⟩
          · simp [Pc.holds, hlk]
          · simp [Pc.credit]
          · simp [Thread.unpushed, Thread.inflight, Thread.returned, callPushes]
          · exact ⟨hnnt.1, by simp⟩
      | pop =>
        cases hpr : q.produced with
        | zero => simp [thread_step, sem_wait, hpr] at hts
        | succ n =>
          simp only [thread_step, sem_wait, hpr, Option.some.injEq, Prod.mk.injEq] at hts
          obtain ⟨rfl, rfl, rfl⟩ := hts
          refine ⟨l, inv_update P h q pre post _ l _ _ _ l hinv
            (chain_congr hinv.chain rfl rfl rfl) ?_ ?_ ?_ (fun x hx => hx) ?_⟩
          · simp [Pc.holds]
          · simp [Pc.credit, hpr]
            omega
          · simp [Thread.unpushed, Thread.inflight, Thread.returned, callPushes]
          · exact ⟨hnnt.1, by simp⟩
  | push_crit r =>
    obtain ⟨⟨nd, hnd⟩, hrl⟩ := inv_mem_facts P _ l hinv _ htmem r (by simp [Thread.unpushed])
    obtain ⟨h2, q2, hbody, hc2, hlk2, hpr2, hpay, _, _, _⟩ :=
      push_body_spec h q l r nd hinv.chain hnd hrl
    simp only [thread_step, hbody, Option.some.injEq, Prod.mk.injEq] at hts
    obtain ⟨rfl, rfl, rfl⟩ := hts
    refine ⟨l ++ [r], inv_update P h q pre post _ l _ _ _ _ hinv hc2 ?_ ?_ ?_ ?_ ?_⟩
    · simp [Pc.holds, hlk2]
    · simp [Pc.credit, hpr2]
      omega
    · simp only [Thread.unpushed, Thread.inflight, Thread.returned]
      rw [← Multiset.coe_eq_coe]
      simp only [← Multiset.coe_add]
      abel
    · intro x hx
      obtain ⟨ndx, hndx⟩ := hx
      obtain ⟨ndx1, hx1, _⟩ := hpay x ndx hndx
      exact ⟨ndx1, hx1⟩
    · exact ⟨hnnt.1, by simp⟩
  | push_unlock =>
    simp only [thread_step, Option.some.injEq, Prod.mk.injEq] at hts
    obtain ⟨rfl, rfl, rfl⟩ := hts
    refine ⟨l, inv_update P h q pre post _ l _ _ _ l hinv
      (chain_congr hinv.chain rfl rfl rfl) ?_ ?_ ?_ (fun x hx => hx) ?_⟩
    · simp [Pc.holds, sem_post]
    · simp [Pc.credit]
    · simp [Thread.unpushed, Thread.inflight, Thread.returned]
    · exact ⟨hnnt.1, by simp⟩
  | push_post =>
    simp only [thread_step, Option.some.injEq, Prod.mk.injEq] at hts
    obtain ⟨rfl, rfl, rfl⟩ := hts
    refine ⟨l, inv_update P h q pre post _ l _ _ _ l hinv
      (chain_congr hinv.chain rfl rfl rfl) ?_ ?_ ?_ (fun x hx => hx) ?_⟩
    · simp [Pc.holds]
    · simp [Pc.credit, sem_post]
      omega
    · simp [Thread.unpushed, Thread.inflight, Thread.returned]
    · exact ⟨hnnt.1, by simp⟩
  | pop_lock =>
    cases hlk : q.Lock with
    | zero => simp [thread_step, sem_wait, hlk] at hts
    | succ n =>
      simp only [thread_step, sem_wait, hlk, Option.some.injEq, Prod.mk.injEq] at hts
      obtain ⟨rfl, rfl, rfl⟩ := hts
      refine ⟨l, inv_update P h q pre post _ l _ _ _ l hinv
        (chain_congr hinv.chain rfl rfl rfl) ?_ ?_ ?_ (fun x hx => hx) ?_⟩
      · simp [Pc.holds, hlk]
      · simp [Pc.credit]
      · simp [Thread.unpushed, Thread.inflight, Thread.returned]
      · exact ⟨hnnt.1, by simp⟩
  | pop_crit =>
    have hcr := credit_le_length P _ l hinv _ htmem
    cases l with
    | nil => simp [Pc.credit] at hcr
    | cons p l2 =>
      obtain ⟨q2, hbody, hc2, hlk2, hpr2⟩ := pop_body_spec h q p l2 hinv.chain
      simp only [thread_step, hbody, Option.some.injEq, Prod.mk.injEq] at hts
      obtain ⟨rfl, rfl, rfl⟩ := hts
      refine ⟨l2, inv_update P h q pre post _ (p :: l2) _ _ _ l2 hinv hc2 ?_ ?_ ?_
        (fun x hx => hx) ?_⟩
      · simp [Pc.holds, hlk2]
      · simp [Pc.credit, hpr2]
        omega
      · simp only [Thread.unpushed, Thread.inflight, Thread.returned]
        rw [← Multiset.coe_eq_coe]
        simp only [← Multiset.coe_add, ← Multiset.cons_coe, ← Multiset.singleton_add]
        abel
      · exact ⟨hnnt.1, by simp⟩
  | pop_unlock r =>
    simp only [thread_step, Option.some.injEq, Prod.mk.injEq] at hts
    obtain ⟨rfl, rfl, rfl⟩ := hts
    cases r with
    | none => exact absurd rfl hnnt.2
    | some p =>
      refine ⟨l, inv_update P h q pre post _ l _ _ _ l hinv
        (chain_congr hinv.chain rfl rfl rfl) ?_ ?_ ?_ (fun x hx => hx) ?_⟩
      · simp [Pc.holds, sem_post]
      · simp [Pc.credit]
      · simp only [Thread.unpushed, Thread.inflight, Thread.returned, List.filterMap_append]
        rw [← Multiset.coe_eq_coe]
        simp only [← Multiset.coe_add]
        simp
        abel
      · refine ⟨?_, by simp⟩
        intro hm
        rcases List.mem_append.mp hm with hm | hm
        · exact hnnt.1 hm
        · simp at hm

theorem start_gather (h : Heap) (progs : List (List Call)) :
    gather Thread.unpushed (start h progs).threads = allPushes progs ∧
    gather Thread.inflight (start h progs).threads = [] ∧
    gather Thread.returned (start h progs).threads = [] ∧
    ((start h progs).threads.map (fun t => t.pc.holds)).sum = 0 ∧
    ((start h progs).threads.map (fun t => t.pc.credit)).sum = 0 ∧
    ∀ t ∈ (start h progs).threads, none ∉ t.got ∧ t.pc ≠ .pop_unlock none := by
  induction progs with
  | nil => simp [start, gather, allPushes]
  | cons c cs ih =>
    obtain ⟨i1, i2, i3, i4, i5, i6⟩ := ih
    simp only [start, List.map_cons, gather, allPushes] at i1 i2 i3 i4 i5 i6 ⊢
    refine ⟨?_, ?_, ?_, ?_, ?_, ?_⟩
    · rw [i1]
      simp [Thread.unpushed]
    · rw [i2]
      simp [Thread.inflight]
    · rw [i3]
      simp [Thread.returned]
    · rw [List.sum_cons, i4]
      rfl
    · rw [List.sum_cons, i5]
      rfl
    · intro t ht
      rcases List.mem_cons.mp ht with hm | hm
      · subst hm
        simp
      · exact i6 t hm

theorem start_inv (h : Heap) (progs : List (List Call)) (hnd : (allPushes progs).Nodup)
    (hal : ∀ p ∈ allPushes progs, (h p).isSome = true) :
    Inv (allPushes progs) (start h progs) [] := by
  obtain ⟨i1, i2, i3, i4, i5, i6⟩ := start_gather h progs
  refine ⟨⟨rfl, List.nodup_nil, rfl, by simp⟩, ?_, ?_, ?_, hnd, ?_, i6⟩
  · rw [i4]
    rfl
  · rw [i5]
    rfl
  · rw [i1, i2, i3]
    simp
  · intro p hp
    exact Option.isSome_iff_exists.mp (hal p hp)

theorem steps_inv (P : List Ptr) (s0 s : Sys) (hrun : Steps s0 s) :
    ∀ l0, Inv P s0 l0 → ∃ l, Inv P s l := by
  induction hrun with
  | refl => exact fun l0 h0 => ⟨l0, h0⟩
  | tail s1 s2 _ hstep ih =>
    intro l0 h0
    obtain ⟨l1, h1⟩ := ih l0 h0
    exact step_inv P s1 s2 l1 h1 hstep

theorem terminal_no_step (s : Sys) (hterm : Terminal s) (t : Thread) (ht : t ∈ s.threads) :
    thread_step s.heap s.q t = none := by
  cases hst : thread_step s.heap s.q t with
  | none => rfl
  | some r =>
    obtain ⟨h1, q1, t1⟩ := r
    obtain ⟨pre, post, hths⟩ := List.append_of_mem ht
    exact absurd ⟨pre, t, post, h1, q1, t1, hths, hst, rfl⟩ (hterm _)

theorem sum_zero_of_all_zero (f : Thread → Nat) :
    ∀ ts : List Thread, (∀ t ∈ ts, f t = 0) → (ts.map f).sum = 0
  | [], _ => rfl
  | t :: ts, hall => by
    simp [hall t (List.mem_cons_self _ _),
      sum_zero_of_all_zero f ts (fun x hx => hall x (List.mem_cons_of_mem _ hx))]

theorem gather_nil_of_all_nil (f : Thread → List Ptr) :
    ∀ ts : List Thread, (∀ t ∈ ts, f t = []) → gather f ts = []
  | [], _ => rfl
  | t :: ts, hall => by
    simp [gather, hall t (List.mem_cons_self _ _),
      gather_nil_of_all_nil f ts (fun x hx => hall x (List.mem_cons_of_mem _ hx))]

/-- In a state where no thread can step, nobody holds the lock. -/
theorem terminal_holds_zero (P : List Ptr) (s : Sys) (l : List Ptr) (hinv : Inv P s l)
    (hterm : Terminal s) (t : Thread) (ht : t ∈ s.threads) : t.pc.holds = 0 := by
  have hno := terminal_no_step s hterm t ht
  have hcr := credit_le_length P s l hinv t ht
  obtain ⟨pc, todo, got⟩ := t
  cases pc with
  | idle => rfl
  | push_crit r =>
    exfalso
    obtain ⟨⟨nd, hnd⟩, hrl⟩ := inv_mem_facts P s l hinv _ ht r (by simp [Thread.unpushed])
    obtain ⟨h2, q2, hbody, _⟩ := push_body_spec s.heap s.q l r nd hinv.chain hnd hrl
    simp [thread_step, hbody] at hno
  | push_unlock => simp [thread_step] at hno
  | push_post => rfl
  | pop_lock => rfl
  | pop_crit =>
    exfalso
    cases l with
    | nil => simp [Pc.credit] at hcr
    | cons p l2 =>
      obtain ⟨q2, hbody, _⟩ := pop_body_spec s.heap s.q p l2 hinv.chain
      simp [thread_step, hbody] at hno
  | pop_unlock r => simp [thread_step] at hno

/-- Shape of a state in which no thread can step: every thread is idle and has either
finished its calls or is suspended in the first `sem_wait` of a pop while `produced` is 0. -/
theorem terminal_shape (P : List Ptr) (s : Sys) (l : List Ptr) (hinv : Inv P s l)
    (hterm : Terminal s) (t : Thread) (ht : t ∈ s.threads) :
    t.pc = .idle ∧ (t.todo = [] ∨ (t.waitingPop ∧ s.q.produced = 0)) := by
  have hlock : s.q.Lock = 1 := by
    have h0 := sum_zero_of_all_zero (fun t => t.pc.holds) s.threads
      (fun x hx => terminal_holds_zero P s l hinv hterm x hx)
    have := hinv.lock
    omega
  have hno := terminal_no_step s hterm t ht
  have hz := terminal_holds_zero P s l hinv hterm t ht
  obtain ⟨pc, todo, got⟩ := t
  cases pc with
  | idle =>
    refine ⟨rfl, ?_⟩
    cases todo with
    | nil => exact Or.inl rfl
    | cons c rest =>
      cases c with
      | push r => simp [thread_step, sem_wait, hlock] at hno
      | pop =>
        refine Or.inr ⟨⟨rfl, rest, rfl⟩, ?_⟩
        cases hpr : s.q.produced with
        | zero => rfl
        | succ n => simp [thread_step, sem_wait, hpr] at hno
  | push_crit r => simp [Pc.holds] at hz
  | push_unlock => simp [Pc.holds] at hz
  | push_post => simp [thread_step] at hno
  | pop_lock => simp [thread_step, sem_wait, hlock] at hno
  | pop_crit => simp [Pc.holds] at hz
  | pop_unlock r => simp [Pc.holds] at hz

theorem filterMap_id_length (got : List (Option Ptr)) (hnn : none ∉ got) :
    (got.filterMap id).length = got.length := by
  induction got with
  | nil => rfl
  | cons x xs ih =>
    cases x with
    | none => simp at hnn
    | some p =>
      have : none ∉ xs := fun hm => hnn (List.mem_cons_of_mem _ hm)
      simp [ih this]

theorem popsDone_eq : ∀ ts : List Thread, (∀ t ∈ ts, none ∉ t.got) →
    (ts.map (fun t => t.got.length)).sum = (gather Thread.returned ts).length
  | [], _ => rfl
  | t :: ts, hnn => by
    have h1 := filterMap_id_length t.got (hnn t (List.mem_cons_self _ _))
    have h2 := popsDone_eq ts (fun x hx => hnn x (List.mem_cons_of_mem _ hx))
    simp only [List.map_cons, List.sum_cons, gather, List.length_append, Thread.returned]
    simp only [Thread.returned] at h2
    omega

theorem Steps.head (s s1 s2 : Sys) (hstep : Step s s1) (hrun : Steps s1 s2) : Steps s s2 := by
  induction hrun with
  | refl => exact Steps.tail s s s1 (Steps.refl s) hstep
  | tail a b _ hab ih => exact Steps.tail s a b ih hab

theorem stepAt_sound : ∀ (i : Nat) (h : Heap) (q : Queue) (ts : List Thread) (h1 : Heap)
    (q1 : Queue) (ts1 : List Thread), stepAt i h q ts = some (h1, q1, ts1) →
    ∃ pre t post t1, ts = pre ++ t :: post ∧ thread_step h q t = some (h1, q1, t1) ∧
      ts1 = pre ++ t1 :: post
  | _, _, _, [], _, _, _, hs => by simp [stepAt] at hs
  | 0, h, q, t :: ts, h1, q1, ts1, hs => by
    cases hst : thread_step h q t with
    | none => simp [stepAt, hst] at hs
    | some r =>
      obtain ⟨h2, q2, t2⟩ := r
      simp only [stepAt, hst, Option.some.injEq, Prod.mk.injEq] at hs
      obtain ⟨rfl, rfl, rfl⟩ := hs
      exact ⟨[], t, ts, t2, rfl, hst, rfl⟩
  | i + 1, h, q, t :: ts, h1, q1, ts1, hs => by
    cases hst : stepAt i h q ts with
    | none => simp [stepAt, hst] at hs
    | some r =>
      obtain ⟨h2, q2, ts2⟩ := r
      simp only [stepAt, hst, Option.some.injEq, Prod.mk.injEq] at hs
      obtain ⟨rfl, rfl, rfl⟩ := hs
      obtain ⟨pre, t0, post, t1, e1, e2, e3⟩ := stepAt_sound i h q ts _ _ _ hst
      exact ⟨t :: pre, t0, post, t1, by simp [e1], e2, by simp [e3]⟩

theorem runSchedule_steps : ∀ (sched : List Nat) (s s1 : Sys),
    runSchedule sched s = some s1 → Steps s s1
  | [], s, s1, hr => by
    simp only [runSchedule, Option.some.injEq] at hr
    subst hr
    exact Steps.refl s
  | i :: rest, s, s1, hr => by
    cases hst : stepAt i s.heap s.q s.threads with
    | none => simp [runSchedule, hst] at hr
    | some r =>
      obtain ⟨h2, q2, ts2⟩ := r
      simp only [runSchedule, hst] at hr
      obtain ⟨pre, t0, post, t1, e1, e2, e3⟩ := stepAt_sound i _ _ _ _ _ _ hst
      exact Steps.head s _ s1 ⟨pre, t0, post, h2, q2, t1, e1, e2, by rw [e3]⟩
        (runSchedule_steps rest _ s1 hr)

theorem terminal_of_all_none (s : Sys)
    (hall : ∀ t ∈ s.threads, thread_step s.heap s.q t = none) : Terminal s := by
  intro s1 hstep
  obtain ⟨pre, t, post, h1, q1, t1, hths, hts, _⟩ := hstep
  have := hall t (by rw [hths]; simp)
  rw [this] at hts
  cases hts

/-- C7: threads run arbitrary programs of `queue_push` and `queue_pop` calls on one queue,
the pushed Requests being distinct and allocated. In every state reached by any
interleaving: no completed pop returned NULL; no Request was returned twice; every returned
Request was pushed; and every Request of the programs is in exactly one place (not yet
pushed, linked in the queue, just unlinked by a pop that is about to return, or returned).
When no thread can take a step any more, every thread has either finished or is suspended
in a pop; if some pop is suspended, the queue is empty, the number of completed pops equals
the number of Requests pushed and the returned Requests are exactly the pushed ones; if
all threads have finished, the pushed Requests are exactly those returned together with
those left in the queue. -/
theorem concurrent_queue_exactly_once (h : Heap) (progs : List (List Call)) (s : Sys)
    (hnd : (allPushes progs).Nodup) (hal : ∀ p ∈ allPushes progs, (h p).isSome = true)
    (hrun : Steps (start h progs) s) :
    (∀ t ∈ s.threads, none ∉ t.got) ∧
    (gather Thread.returned s.threads).Nodup ∧
    (∀ p ∈ gather Thread.returned s.threads,
      p ∈ allPushes progs ∧ p ∉ gather Thread.unpushed s.threads) ∧
    ∃ l, linked s.heap s.q.head l ∧
      List.Perm (gather Thread.unpushed s.threads ++ l ++ gather Thread.inflight s.threads ++
        gather Thread.returned s.threads) (allPushes progs) ∧
      (Terminal s →
        (∀ t ∈ s.threads, t.pc = .idle ∧ (t.todo = [] ∨ t.waitingPop)) ∧
        ((∃ t ∈ s.threads, t.waitingPop) →
          l = [] ∧ popsDone s = pushesDone progs s ∧
          List.Perm (gather Thread.unpushed s.threads ++ gather Thread.returned s.threads)
            (allPushes progs)) ∧
        ((∀ t ∈ s.threads, t.todo = []) →
          List.Perm (l ++ gather Thread.returned s.threads) (allPushes progs))) := by
  obtain ⟨l, hinv⟩ := steps_inv (allPushes progs) _ s hrun [] (start_inv h progs hnd hal)
  have hnn : ∀ t ∈ s.threads, none ∉ t.got := fun t ht => (hinv.nonnull t ht).1
  have hcat : (gather Thread.unpushed s.threads ++ l ++ gather Thread.inflight s.threads ++
      gather Thread.returned s.threads).Nodup := hinv.own.nodup_iff.mpr hinv.nodup
  refine ⟨hnn, ?_, ?_, l, hinv.chain.chain, hinv.own, ?_⟩
  · exact (List.nodup_append.mp hcat).2.1
  · intro p hp
    refine ⟨hinv.own.subset (by simp [hp]), ?_⟩
    intro hu
    exact (List.nodup_append.mp hcat).2.2 (by simp [hu]) hp
  · intro hterm
    have hshape := fun t ht => terminal_shape (allPushes progs) s l hinv hterm t ht
    have hinfl : gather Thread.inflight s.threads = [] :=
      gather_nil_of_all_nil _ _ (fun t ht => by
        have := (hshape t ht).1
        simp [Thread.inflight, this])
    have hcred : (s.threads.map (fun t => t.pc.credit)).sum = 0 :=
      sum_zero_of_all_zero _ _ (fun t ht => by
        have := (hshape t ht).1
        simp [this, Pc.credit])
    have hown := hinv.own
    rw [hinfl, List.append_nil] at hown
    refine ⟨?_, ?_, ?_⟩
    · intro t ht
      refine ⟨(hshape t ht).1, ?_⟩
      rcases (hshape t ht).2 with h0 | h0
      · exact Or.inl h0
      · exact Or.inr h0.1
    · rintro ⟨t, ht, hw⟩
      have hprod : s.q.produced = 0 := by
        rcases (hshape t ht).2 with h0 | h0
        · obtain ⟨_, rest, hrest⟩ := hw
          rw [h0] at hrest
          cases hrest
        · exact h0.2
      have hl : l = [] := by
        have := hinv.avail
        rw [hprod, hcred] at this
        exact List.length_eq_zero.mp this
      subst hl
      rw [List.append_nil] at hown
      refine ⟨rfl, ?_, hown⟩
      have hlen := hown.length_eq
      simp only [List.length_append] at hlen
      simp only [popsDone, pushesDone]
      rw [popsDone_eq s.threads hnn]
      omega
    · intro hfin
      have hunp : gather Thread.unpushed s.threads = [] :=
        gather_nil_of_all_nil _ _ (fun t ht => by
          have h1 := (hshape t ht).1
          have h2 := hfin t ht
          simp [Thread.unpushed, h1, h2, callPushes])
      rw [hunp, List.nil_append] at hown
      exact hown

theorem sample_run : runSchedule sampleSchedule (start sampleHeap samplePrograms) =
    some sampleFinal := rfl

theorem sample_terminal : Terminal sampleFinal := by
  apply terminal_of_all_none
  intro t ht
  have hths : sampleFinal.threads =
      [{ pc := .idle, todo := [], got := [] },
       { pc := .idle, todo := [.pop], got := [some 1, some 2] }] := rfl
  rw [hths] at ht
  simp only [List.mem_cons, List.mem_singleton, List.not_mem_nil, or_false] at ht
  rcases ht with rfl | rfl <;> rfl

theorem concurrent_queue_exactly_once_witness :
    Steps (start sampleHeap samplePrograms) sampleFinal ∧ Terminal sampleFinal ∧
    popsDone sampleFinal = 2 ∧
    ((∀ t ∈ sampleFinal.threads, none ∉ t.got) ∧
    (gather Thread.returned sampleFinal.threads).Nodup ∧
    (∀ p ∈ gather Thread.returned sampleFinal.threads,
      p ∈ allPushes samplePrograms ∧ p ∉ gather Thread.unpushed sampleFinal.threads) ∧
    ∃ l, linked sampleFinal.heap sampleFinal.q.head l ∧
      List.Perm (gather Thread.unpushed sampleFinal.threads ++ l ++
        gather Thread.inflight sampleFinal.threads ++
        gather Thread.returned sampleFinal.threads) (allPushes samplePrograms) ∧
      (Terminal sampleFinal →
        (∀ t ∈ sampleFinal.threads, t.pc = .idle ∧ (t.todo = [] ∨ t.waitingPop)) ∧
        ((∃ t ∈ sampleFinal.threads, t.waitingPop) →
          l = [] ∧ popsDone sampleFinal = pushesDone samplePrograms sampleFinal ∧
          List.Perm (gather Thread.unpushed sampleFinal.threads ++
            gather Thread.returned sampleFinal.threads) (allPushes samplePrograms)) ∧
        ((∀ t ∈ sampleFinal.threads, t.todo = []) →
          List.Perm (l ++ gather Thread.returned sampleFinal.threads)
            (allPushes samplePrograms)))) :=
  ⟨runSchedule_steps _ _ _ sample_run, sample_terminal, rfl,
    concurrent_queue_exactly_once sampleHeap samplePrograms sampleFinal (by decide)
      (by decide) (runSchedule_steps _ _ _ sample_run)⟩

theorem Heap.set_set_free (h : Heap) (p : Ptr) (v : Option Request) (hfree : h p = none) :
    (h.set p v).set p none = h := by
  funext a
  by_cases ha : a = p
  · subst ha
    simp [Heap.set, hfree]
  · simp [Heap.set, ha]

/-- Responses rejected by the status check: when the response is empty or its first
line lacks `200 OK`, the Puller iteration returns with the queues and the heap as they
were (the GET Request it built has been released). -/
theorem puller_discards_bad_status (BUFSIZ : Nat) (mq : MessageQueue) (fs : Socket)
    (blk1 : Block) (blk2 : Option Block) (stack_body : String)
    (hfresh : mq.heap blk1.addr = none)
    (hbuf : ("/queue/" ++ mq.name).utf8ByteSize < BUFSIZ)
    (hbad : ∀ status rest, fgets BUFSIZ fs.recv = some (status, rest) →
      strstr status "200 OK".data = false) :
    ∃ mq1, mq_puller_iter BUFSIZ mq (some fs) (some blk1) blk2 stack_body = .ok mq1 ∧
      mq1.incoming = mq.incoming ∧ mq1.outgoing = mq.outgoing ∧ mq1.heap = mq.heap := by
  have hfree := Heap.set_set_free mq.heap blk1.addr
    (some { method := "GET", uri := "/queue/" ++ mq.name, body := none, next := blk1.next })
    hfresh
  let out : String := fs.sent ++ ("GET " ++ ("/queue/" ++ mq.name) ++ " HTTP/1.0\r\n") ++ "\r\n"
  let nd : Request :=
    { method := "GET", uri := "/queue/" ++ mq.name, body := none, next := blk1.next }
  let h2 : Heap := (mq.heap.set blk1.addr (some nd)).set blk1.addr none
  refine ⟨{ mq with heap := h2, wire := mq.wire ++ [out] }, ?_, rfl, rfl, hfree⟩
  cases hf : fgets BUFSIZ fs.recv with
  | none =>
    simp [mq_puller_iter, sprintf_buf, hbuf, request_create, request_write, request_delete, hf,
      h2, out, nd]
  | some r =>
    obtain ⟨status, rest⟩ := r
    have hs := hbad status rest hf
    simp [mq_puller_iter, sprintf_buf, hbuf, request_create, request_write, request_delete, hf,
      hs, h2, out, nd]

end MQ
